import Mathlib

/-!
# Message decoding of `discord/message.go`

A shallow embedding of `Message.UnmarshalJSON`, of the records it fills and of the
`MessageType` constant block, together with the part of `encoding/json` the method
runs through.

* JSON texts are represented by the value they spell (`JSON`), object members kept in
  document order with repeated names allowed, as the decoder of `encoding/json` sees them.
* Go slices distinguish `nil` from an empty, allocated slice (`Slice`).
* A Go `error` result is `Option DecodeError`, `none` being `nil`.
* `User`, `time.Time`, `MessageComponent` and `unmarshalableMessageComponent` are declared
  outside `message.go`; their types and decoders are parameters (`Collaborators`).
-/

namespace discord

/-! ## JSON values -/

/-- A JSON value. A number literal without fraction and exponent is `int`, any other
number literal is `float` and keeps its text. -/
inductive JSON where
  | null
  | bool (b : Bool)
  | int (i : Int)
  | float (lit : String)
  | string (s : String)
  | array (elems : List JSON)
  | object (members : List (String × JSON))
  deriving Repr

/-- The input `data []byte` of a decode call, as `checkValid` of `encoding/json`
classifies it: not a JSON text at all, or the text of exactly one JSON value. -/
inductive Payload where
  | invalid
  | valid (doc : JSON)

/-- The `error` values `json.Unmarshal` can return. -/
inductive DecodeError where
  | SyntaxError
  | UnmarshalTypeError (Value : String)
  | UnmarshalerError (text : String)
  deriving DecidableEq, Repr

/-- A Go slice value: `nil`, or an allocated slice with its elements. -/
inductive Slice (α : Type) where
  | nil
  | mk (elems : List α)
  deriving DecidableEq, Repr

/-- The elements of a slice (`nil` has none). -/
def Slice.toList {α : Type} : Slice α → List α
  | .nil => []
  | .mk xs => xs

/-- Go `len(s)`. -/
def Slice.len {α : Type} (s : Slice α) : Nat := s.toList.length

/-- Go `make([]T, n)`: an allocated slice of `n` zero values. -/
def Slice.make {α : Type} (zero : α) (n : Nat) : Slice α := .mk (List.replicate n zero)

/-- Go `s[i] = x` on a slice with `i < len(s)`. -/
def Slice.set {α : Type} (s : Slice α) (i : Nat) (x : α) : Slice α :=
  match s with
  | .nil => .nil
  | .mk xs => .mk (xs.set i x)

/-! ## The decoder of `encoding/json` -/

/-- Outcome of decoding one JSON value into a Go value: an error that aborts the whole
`json.Unmarshal` call (returned by an `UnmarshalJSON` method), or the updated Go value
with the first error that was saved while decoding went on (`d.saveError`). -/
abbrev Decoded (α : Type) := Except DecodeError (α × Option DecodeError)

/-- A decoder stores a JSON value into an existing Go value. -/
abbrev Decoder (α : Type) := JSON → α → Decoded α

/-- `d.saveError`: only the first saved error is kept. -/
def saveError (saved : Option DecodeError) (later : Option DecodeError) : Option DecodeError :=
  match saved with
  | some e => some e
  | none => later

/-- The `Value` text of an `UnmarshalTypeError` raised for a JSON value of the wrong kind. -/
def JSON.kind : JSON → String
  | .null => "null"
  | .bool _ => "bool"
  | .int _ => "number"
  | .float _ => "number"
  | .string _ => "string"
  | .array _ => "array"
  | .object _ => "object"

/-- Size in bits of Go `int` (64-bit targets). -/
def intSize : Nat := 64

/-- `literalStore` into a Go `string`. -/
def decodeString : Decoder String
  | .string s, _ => .ok (s, none)
  | .null, old => .ok (old, none)
  | j, old => .ok (old, some (.UnmarshalTypeError j.kind))

/-- `literalStore` into a Go `bool`. -/
def decodeBool : Decoder Bool
  | .bool b, _ => .ok (b, none)
  | .null, old => .ok (old, none)
  | j, old => .ok (old, some (.UnmarshalTypeError j.kind))

/-- `literalStore` into a Go `int`: the literal must be an integer in range. -/
def decodeInt : Decoder Int
  | .int i, old =>
    if -(2 ^ (intSize - 1) : Int) ≤ i ∧ i < 2 ^ (intSize - 1) then .ok (i, none)
    else .ok (old, some (.UnmarshalTypeError ("number " ++ toString i)))
  | .float lit, old => .ok (old, some (.UnmarshalTypeError ("number " ++ lit)))
  | .null, old => .ok (old, none)
  | j, old => .ok (old, some (.UnmarshalTypeError j.kind))

/-- Case folding of one rune as far as it can matter for an ASCII field name: ASCII
letters fold to upper case, and the two non-ASCII runes whose fold orbit holds an ASCII
letter (U+017F long s, U+212A Kelvin sign) fold to `S` and `K`. -/
def foldRune (c : Char) : Char :=
  if 'a'.toNat ≤ c.toNat ∧ c.toNat ≤ 'z'.toNat then Char.ofNat (c.toNat - 32)
  else if c.toNat = 0x17F then 'S'
  else if c.toNat = 0x212A then 'K'
  else c

/-- `foldName` of `encoding/json`. -/
def foldName (s : String) : String := String.mk (s.data.map foldRune)

/-- A struct field as `encoding/json` sees it: its JSON name and how a value is stored
into that field of the struct. -/
structure Field (α : Type) where
  name : String
  store : Decoder α

/-- Field lookup of `d.object` among the fields of a struct type: an exact name match,
else the first field whose name matches under case folding. -/
def lookupField {β : Type} (name : β → String) (fields : List β) (key : String) : Option β :=
  match fields.find? (fun f => name f == key) with
  | some f => some f
  | none => fields.find? (fun f => foldName (name f) == foldName key)

/-- Field lookup in a table of fields. -/
def findField {α : Type} (fields : List (Field α)) (key : String) : Option (Field α) :=
  lookupField Field.name fields key

/-- The member loop of `d.object` on a struct: members are decoded in document order,
a member whose name matches no field is skipped, an aborting error stops the loop. -/
def decodeMembers {α : Type} (fields : List (Field α)) : List (String × JSON) → α → Decoded α
  | [], a => .ok (a, none)
  | (key, val) :: rest, a =>
    match findField fields key with
    | none => decodeMembers fields rest a
    | some f =>
      match f.store val a with
      | .error e => .error e
      | .ok (a1, s1) =>
        match decodeMembers fields rest a1 with
        | .error e => .error e
        | .ok (a2, s2) => .ok (a2, saveError s1 s2)

/-- Decoding into a struct without `UnmarshalJSON` method: an object goes through the
member loop, `null` changes nothing, any other value saves an `UnmarshalTypeError`. -/
def decodeStruct {α : Type} (fields : List (Field α)) : Decoder α
  | .object ms, a => decodeMembers fields ms a
  | .null, a => .ok (a, none)
  | j, a => .ok (a, some (.UnmarshalTypeError j.kind))

/-- The element loop of `d.array` on a slice: element `i` is decoded into the existing
element `i` while there is one and into a zero value after that (the storage of a slice
past its length is taken to hold zero values). -/
def decodeElems {α : Type} (elem : Decoder α) (zero : α) : List JSON → List α → Decoded (List α)
  | [], _ => .ok ([], none)
  | x :: xs, old =>
    match elem x (old.headD zero) with
    | .error e => .error e
    | .ok (y, s1) =>
      match decodeElems elem zero xs old.tail with
      | .error e => .error e
      | .ok (ys, s2) => .ok (y :: ys, saveError s1 s2)

/-- Decoding into a slice: an array yields an allocated slice of the same length (also
when empty), `null` yields the nil slice, any other value saves an `UnmarshalTypeError`. -/
def decodeSlice {α : Type} (elem : Decoder α) (zero : α) : Decoder (Slice α)
  | .array xs, old =>
    match decodeElems elem zero xs old.toList with
    | .error e => .error e
    | .ok (ys, s) => .ok (.mk ys, s)
  | .null, _ => .ok (.nil, none)
  | j, old => .ok (old, some (.UnmarshalTypeError j.kind))

/-- Decoding into a value whose type implements `Unmarshaler`: the method gets every
JSON value, `null` included, and its error aborts the call. -/
def decodeUnmarshaler {α : Type} (unmarshalJSON : α → JSON → α × Option DecodeError) : Decoder α :=
  fun j a =>
    match unmarshalJSON a j with
    | (a1, none) => .ok (a1, none)
    | (_, some e) => .error e

/-- A field of type `β` inside a struct `α`: the value is decoded into the current
content of the field. -/
def Field.of {α β : Type} (name : String) (get : α → β) (set : α → β → α) (dec : Decoder β) :
    Field α :=
  { name := name
    store := fun j a =>
      match dec j (get a) with
      | .error e => .error e
      | .ok (b, s) => .ok (set a b, s) }

/-! ## The records of `message.go` -/

structure EmbedField where
  Name : String
  Value : String
  Inline : Bool
  deriving DecidableEq, Repr

structure EmbedFooter where
  Text : String
  IconURL : String
  ProxyIconURL : String
  deriving DecidableEq, Repr

structure EmbedAuthor where
  Name : String
  URL : String
  IconURL : String
  ProxyIconURL : String
  deriving DecidableEq, Repr

structure EmbedProvider where
  Name : String
  URL : String
  deriving DecidableEq, Repr

/-- The record `Embed`; `Tm` stands for `time.Time`. -/
structure Embed (Tm : Type) where
  Title : String
  Type_ : String
  Description : String
  URL : String
  Time : Tm
  Color : Int
  Footer : EmbedFooter
  Provider : EmbedProvider
  Author : EmbedAuthor
  Fields : Slice EmbedField
  deriving DecidableEq, Repr

/-- The record `Message`; `Tm` stands for `time.Time`. A nil `*Message` is `none`. -/
structure Message (User Tm MessageComponent : Type) where
  ID : String
  ChannelID : String
  GuildID : String
  Author : User
  Content : String
  Time : Tm
  EditedTime : Tm
  TTS : Bool
  MentionEveryone : Bool
  Mentions : Slice User
  Type_ : Int
  Pinned : Bool
  Embeds : Slice (Embed Tm)
  WebhookID : String
  Components : Slice MessageComponent
  ReferencedMessage : Option (Message User Tm MessageComponent)

/-- The element type of `RawComponents`; line 119 reads its `MessageComponent`. -/
structure unmarshalableMessageComponent (MessageComponent : Type) where
  MessageComponent : MessageComponent

/-- What `message.go` uses but does not declare: the zero values of `User`, `time.Time`
and `MessageComponent`, how `encoding/json` decodes a `User`, the `UnmarshalJSON` method
of `time.Time`, and the decoding of one element of the `components` array. -/
structure Collaborators (User Tm MessageComponent : Type) where
  userZero : User
  timeZero : Tm
  componentZero : MessageComponent
  decodeUser : Decoder User
  timeUnmarshalJSON : Tm → JSON → Tm × Option DecodeError
  decodeComponent : JSON → Except DecodeError MessageComponent

def EmbedField.zero : EmbedField := { Name := "", Value := "", Inline := false }

def EmbedFooter.zero : EmbedFooter := { Text := "", IconURL := "", ProxyIconURL := "" }

def EmbedAuthor.zero : EmbedAuthor := { Name := "", URL := "", IconURL := "", ProxyIconURL := "" }

def EmbedProvider.zero : EmbedProvider := { Name := "", URL := "" }

def Embed.zero {Tm : Type} (timeZero : Tm) : Embed Tm :=
  { Title := "", Type_ := "", Description := "", URL := "", Time := timeZero, Color := 0,
    Footer := EmbedFooter.zero, Provider := EmbedProvider.zero, Author := EmbedAuthor.zero,
    Fields := .nil }

section
variable {User Tm MessageComponent : Type}

/-- The zero value of `Message`. -/
def Message.zero (lib : Collaborators User Tm MessageComponent) :
    Message User Tm MessageComponent :=
  { ID := "", ChannelID := "", GuildID := "", Author := lib.userZero, Content := "",
    Time := lib.timeZero, EditedTime := lib.timeZero, TTS := false, MentionEveryone := false,
    Mentions := .nil, Type_ := 0, Pinned := false, Embeds := .nil, WebhookID := "",
    Components := .nil, ReferencedMessage := none }

/-! ### Field tables (the struct tags) -/

def EmbedField.fields : List (Field EmbedField) :=
  [ Field.of "name" (·.Name) (fun a x => { a with Name := x }) decodeString,
    Field.of "value" (·.Value) (fun a x => { a with Value := x }) decodeString,
    Field.of "inline" (·.Inline) (fun a x => { a with Inline := x }) decodeBool ]

def EmbedFooter.fields : List (Field EmbedFooter) :=
  [ Field.of "text" (·.Text) (fun a x => { a with Text := x }) decodeString,
    Field.of "icon_url" (·.IconURL) (fun a x => { a with IconURL := x }) decodeString,
    Field.of "proxy_icon_url" (·.ProxyIconURL) (fun a x => { a with ProxyIconURL := x })
      decodeString ]

def EmbedAuthor.fields : List (Field EmbedAuthor) :=
  [ Field.of "name" (·.Name) (fun a x => { a with Name := x }) decodeString,
    Field.of "url" (·.URL) (fun a x => { a with URL := x }) decodeString,
    Field.of "icon_url" (·.IconURL) (fun a x => { a with IconURL := x }) decodeString,
    Field.of "proxy_icon_url" (·.ProxyIconURL) (fun a x => { a with ProxyIconURL := x })
      decodeString ]

def EmbedProvider.fields : List (Field EmbedProvider) :=
  [ Field.of "name" (·.Name) (fun a x => { a with Name := x }) decodeString,
    Field.of "url" (·.URL) (fun a x => { a with URL := x }) decodeString ]

def Embed.fields (timeUnmarshalJSON : Tm → JSON → Tm × Option DecodeError) :
    List (Field (Embed Tm)) :=
  [ Field.of "title" (·.Title) (fun a x => { a with Title := x }) decodeString,
    Field.of "type" (·.Type_) (fun a x => { a with Type_ := x }) decodeString,
    Field.of "description" (·.Description) (fun a x => { a with Description := x })
      decodeString,
    Field.of "url" (·.URL) (fun a x => { a with URL := x }) decodeString,
    Field.of "timestamp" (·.Time) (fun a x => { a with Time := x })
      (decodeUnmarshaler timeUnmarshalJSON),
    Field.of "color" (·.Color) (fun a x => { a with Color := x }) decodeInt,
    Field.of "footer" (·.Footer) (fun a x => { a with Footer := x })
      (decodeStruct EmbedFooter.fields),
    Field.of "provider" (·.Provider) (fun a x => { a with Provider := x })
      (decodeStruct EmbedProvider.fields),
    Field.of "author" (·.Author) (fun a x => { a with Author := x })
      (decodeStruct EmbedAuthor.fields),
    Field.of "fields" (·.Fields) (fun a x => { a with Fields := x })
      (decodeSlice (decodeStruct EmbedField.fields) EmbedField.zero) ]

/-! ### `Message.UnmarshalJSON` -/

/-- The local variable `v` of `UnmarshalJSON`: the method-less copy `message` of the
record, embedded, next to the raw components. -/
structure messageV (User Tm MessageComponent : Type) where
  message : Message User Tm MessageComponent
  RawComponents : Slice (unmarshalableMessageComponent MessageComponent)

/-- The fields of `v` that `encoding/json` can reach, in index order: the promoted fields
of `message` (`Components` is tagged `-` and is not among them), then `RawComponents`. -/
inductive WireField where
  | ID | ChannelID | GuildID | Author | Content | Time | EditedTime | TTS | MentionEveryone
  | Mentions | Type_ | Pinned | Embeds | WebhookID | ReferencedMessage | RawComponents
  deriving DecidableEq, Repr

/-- The JSON name of a field, from its struct tag. -/
def WireField.name : WireField → String
  | .ID => "id"
  | .ChannelID => "channel_id"
  | .GuildID => "guild_id"
  | .Author => "author"
  | .Content => "content"
  | .Time => "timestamp"
  | .EditedTime => "edited_timestamp"
  | .TTS => "tts"
  | .MentionEveryone => "mention_everyone"
  | .Mentions => "mentions"
  | .Type_ => "type"
  | .Pinned => "pinned"
  | .Embeds => "embeds"
  | .WebhookID => "webhook_id"
  | .ReferencedMessage => "referenced_message"
  | .RawComponents => "components"

def WireField.all : List WireField :=
  [.ID, .ChannelID, .GuildID, .Author, .Content, .Time, .EditedTime, .TTS, .MentionEveryone,
   .Mentions, .Type_, .Pinned, .Embeds, .WebhookID, .ReferencedMessage, .RawComponents]

/-- The field of `v` a member name of the payload is decoded into, if any. -/
def resolve (key : String) : Option WireField := lookupField WireField.name WireField.all key

/-- Storing into a promoted field of the embedded `message`. -/
def onMessage {β : Type} (v : messageV User Tm MessageComponent)
    (get : Message User Tm MessageComponent → β)
    (set : Message User Tm MessageComponent → β → Message User Tm MessageComponent)
    (dec : Decoder β) (val : JSON) : Decoded (messageV User Tm MessageComponent) :=
  match dec val (get v.message) with
  | .error e => .error e
  | .ok (b, s) => .ok ({ v with message := set v.message b }, s)

/-- Modelled from the spec: the decoding of one element of the `components` array into
an `unmarshalableMessageComponent`, a type declared outside `message.go`. Following §4.2
(Component Decoder) it is a function of the raw element alone that yields one component
value or a decode failure; a failure aborts the call, as an error returned by an
`UnmarshalJSON` method does. -/
def decodeRaw (lib : Collaborators User Tm MessageComponent) :
    Decoder (unmarshalableMessageComponent MessageComponent) :=
  fun j _ =>
    match lib.decodeComponent j with
    | .error e => .error e
    | .ok c => .ok ({ MessageComponent := c }, none)

/-- Decoding into the field `ReferencedMessage *Message`: `null` sets the pointer to nil;
any other value is handed to the `UnmarshalJSON` method of the pointee (a fresh zero
`Message` when the pointer is nil), here `nested`, whose error aborts the call. -/
def decodeReferenced (lib : Collaborators User Tm MessageComponent)
    (nested : Message User Tm MessageComponent →
      Message User Tm MessageComponent × Option DecodeError) :
    Decoder (Option (Message User Tm MessageComponent))
  | .null, _ => .ok (none, none)
  | _, old =>
    match nested (old.getD (Message.zero lib)) with
    | (r, none) => .ok (some r, none)
    | (_, some e) => .error e

/-- Decoding the value `val` of one member into field `f` of `v`. -/
def storeField (lib : Collaborators User Tm MessageComponent) (f : WireField)
    (nested : Message User Tm MessageComponent →
      Message User Tm MessageComponent × Option DecodeError)
    (val : JSON) (v : messageV User Tm MessageComponent) :
    Decoded (messageV User Tm MessageComponent) :=
  match f with
  | .ID => onMessage v (·.ID) (fun m x => { m with ID := x }) decodeString val
  | .ChannelID => onMessage v (·.ChannelID) (fun m x => { m with ChannelID := x }) decodeString val
  | .GuildID => onMessage v (·.GuildID) (fun m x => { m with GuildID := x }) decodeString val
  | .Author => onMessage v (·.Author) (fun m x => { m with Author := x }) lib.decodeUser val
  | .Content => onMessage v (·.Content) (fun m x => { m with Content := x }) decodeString val
  | .Time => onMessage v (·.Time) (fun m x => { m with Time := x })
      (decodeUnmarshaler lib.timeUnmarshalJSON) val
  | .EditedTime => onMessage v (·.EditedTime) (fun m x => { m with EditedTime := x })
      (decodeUnmarshaler lib.timeUnmarshalJSON) val
  | .TTS => onMessage v (·.TTS) (fun m x => { m with TTS := x }) decodeBool val
  | .MentionEveryone => onMessage v (·.MentionEveryone)
      (fun m x => { m with MentionEveryone := x }) decodeBool val
  | .Mentions => onMessage v (·.Mentions) (fun m x => { m with Mentions := x })
      (decodeSlice lib.decodeUser lib.userZero) val
  | .Type_ => onMessage v (·.Type_) (fun m x => { m with Type_ := x }) decodeInt val
  | .Pinned => onMessage v (·.Pinned) (fun m x => { m with Pinned := x }) decodeBool val
  | .Embeds => onMessage v (·.Embeds) (fun m x => { m with Embeds := x })
      (decodeSlice (decodeStruct (Embed.fields lib.timeUnmarshalJSON)) (Embed.zero lib.timeZero))
      val
  | .WebhookID => onMessage v (·.WebhookID) (fun m x => { m with WebhookID := x }) decodeString val
  | .ReferencedMessage => onMessage v (·.ReferencedMessage)
      (fun m x => { m with ReferencedMessage := x }) (decodeReferenced lib nested) val
  | .RawComponents =>
    match decodeSlice (decodeRaw lib) { MessageComponent := lib.componentZero } val
        v.RawComponents with
    | .error e => .error e
    | .ok (raws, s) => .ok ({ v with RawComponents := raws }, s)

/-- The loop of lines 118-120: `m.Components[i] = v.MessageComponent` for the elements
of `RawComponents` from index `i` on. -/
def copyComponents :
    List (unmarshalableMessageComponent MessageComponent) → Nat → Slice MessageComponent →
      Slice MessageComponent
  | [], _, components => components
  | raw :: rest, i, components => copyComponents rest (i + 1) (components.set i raw.MessageComponent)

/-- Lines 113-121, after `err := json.Unmarshal(data, &v)`: on an error the receiver is
left alone and the error is returned; otherwise the receiver is overwritten with
`v.message`, `Components` is made anew with the length of `RawComponents` and filled by
the loop, and `nil` is returned. -/
def assemble (m : Message User Tm MessageComponent)
    (componentZero : MessageComponent)
    (unmarshalled : Decoded (messageV User Tm MessageComponent)) :
    Message User Tm MessageComponent × Option DecodeError :=
  match unmarshalled with
  | .error err => (m, some err)
  | .ok (_, some err) => (m, some err)
  | .ok (v, none) =>
    let m1 := v.message
    let m2 := { m1 with Components := Slice.make componentZero v.RawComponents.len }
    ({ m2 with Components := copyComponents v.RawComponents.toList 0 m2.Components }, none)

mutual
/-- The method `Message.UnmarshalJSON` on the text of a JSON value: `v` starts as a zero
value, `json.Unmarshal(data, &v)` decodes an object member by member, leaves `v` alone on
`null` and saves an `UnmarshalTypeError` on any other value; the result is the receiver
after the call and the returned error. -/
def Message.unmarshalValue (lib : Collaborators User Tm MessageComponent)
    (m : Message User Tm MessageComponent) (data : JSON) :
    Message User Tm MessageComponent × Option DecodeError :=
  let v : messageV User Tm MessageComponent := { message := Message.zero lib, RawComponents := .nil }
  assemble m lib.componentZero
    (match data with
     | .object members => decodeWire lib members v
     | .null => .ok (v, none)
     | .bool _ => .ok (v, some (.UnmarshalTypeError "bool"))
     | .int _ => .ok (v, some (.UnmarshalTypeError "number"))
     | .float _ => .ok (v, some (.UnmarshalTypeError "number"))
     | .string _ => .ok (v, some (.UnmarshalTypeError "string"))
     | .array _ => .ok (v, some (.UnmarshalTypeError "array")))
/-- The member loop of `d.object` on `v`; the value of a `referenced_message` member is
handed to `Message.UnmarshalJSON` again. -/
def decodeWire (lib : Collaborators User Tm MessageComponent) :
    List (String × JSON) → messageV User Tm MessageComponent →
      Decoded (messageV User Tm MessageComponent)
  | [], v => .ok (v, none)
  | (key, val) :: rest, v =>
    match resolve key with
    | none => decodeWire lib rest v
    | some f =>
      match storeField lib f (fun pointee => Message.unmarshalValue lib pointee val) val v with
      | .error e => .error e
      | .ok (v1, s1) =>
        match decodeWire lib rest v1 with
        | .error e => .error e
        | .ok (v2, s2) => .ok (v2, saveError s1 s2)
end

/-- The method `func (m *Message) UnmarshalJSON(data []byte) error`: the receiver after the call
and the returned error. Bytes that are not a JSON text make `json.Unmarshal` return a
`SyntaxError` before anything is decoded. -/
def Message.UnmarshalJSON (lib : Collaborators User Tm MessageComponent)
    (m : Message User Tm MessageComponent) (data : Payload) :
    Message User Tm MessageComponent × Option DecodeError :=
  match data with
  | .invalid => (m, some .SyntaxError)
  | .valid doc => Message.unmarshalValue lib m doc

/-- The call `json.Unmarshal(data, &v)` of line 112 on the text of a JSON value, `v`
being a zero value. -/
def unmarshalV (lib : Collaborators User Tm MessageComponent) (data : JSON) :
    Decoded (messageV User Tm MessageComponent) :=
  let v : messageV User Tm MessageComponent := { message := Message.zero lib, RawComponents := .nil }
  match data with
  | .object members => decodeWire lib members v
  | .null => .ok (v, none)
  | .bool _ => .ok (v, some (.UnmarshalTypeError "bool"))
  | .int _ => .ok (v, some (.UnmarshalTypeError "number"))
  | .float _ => .ok (v, some (.UnmarshalTypeError "number"))
  | .string _ => .ok (v, some (.UnmarshalTypeError "string"))
  | .array _ => .ok (v, some (.UnmarshalTypeError "array"))

/-! ### Members of a payload -/

/-- The value of the last member of an object that is decoded into field `f`: members
are decoded in document order, so this is the member that decides the field. -/
def lastMember (f : WireField) : List (String × JSON) → Option JSON
  | [] => none
  | (key, val) :: rest =>
    match lastMember f rest with
    | some later => some later
    | none => if resolve key = some f then some val else none

mutual
/-- Nesting depth of `referenced_message` members in a document. -/
def refDepth : JSON → Nat
  | .object members => refDepthMembers members
  | _ => 0
/-- Nesting depth of `referenced_message` members below a member list. -/
def refDepthMembers : List (String × JSON) → Nat
  | [] => 0
  | (key, val) :: rest =>
    max (if resolve key = some .ReferencedMessage then refDepth val + 1 else 0)
      (refDepthMembers rest)
end

/-! ### `Message.UnmarshalJSON` with a bounded call stack -/

/-- The invocation of `UnmarshalJSON` that storing `val` into field `f` of `v` makes
through `self`: there is one only for a value of `referenced_message` other than `null`,
on the pointee (a zero `Message` when the pointer is nil). Where there is none the value
given is one that `storeField` does not read. -/
def nestedCall (lib : Collaborators User Tm MessageComponent)
    (self : Message User Tm MessageComponent → JSON →
      Option (Message User Tm MessageComponent × Option DecodeError))
    (f : WireField) (val : JSON) (v : messageV User Tm MessageComponent) :
    Option (Message User Tm MessageComponent × Option DecodeError) :=
  match f with
  | .ReferencedMessage =>
    match val with
    | .null => some (Message.zero lib, none)
    | _ => self (v.message.ReferencedMessage.getD (Message.zero lib)) val
  | _ => some (Message.zero lib, none)

/-- The member loop of `d.object` on `v` where the `UnmarshalJSON` calls for
`referenced_message` values are made through `self`, which may run out of stack
(`none`). -/
def decodeWireBounded (lib : Collaborators User Tm MessageComponent)
    (self : Message User Tm MessageComponent → JSON →
      Option (Message User Tm MessageComponent × Option DecodeError)) :
    List (String × JSON) → messageV User Tm MessageComponent →
      Option (Decoded (messageV User Tm MessageComponent))
  | [], v => some (.ok (v, none))
  | (key, val) :: rest, v =>
    match resolve key with
    | none => decodeWireBounded lib self rest v
    | some f =>
      match nestedCall lib self f val v with
      | none => none
      | some returned =>
        match storeField lib f (fun _ => returned) val v with
        | .error e => some (.error e)
        | .ok (v1, s1) =>
          match decodeWireBounded lib self rest v1 with
          | none => none
          | some (.error e) => some (.error e)
          | some (.ok (v2, s2)) => some (.ok (v2, saveError s1 s2))

/-- The method `Message.UnmarshalJSON` run with room for `depth` nested invocations of
itself: `none` when an invocation would exceed it. -/
def Message.unmarshalBounded (lib : Collaborators User Tm MessageComponent) :
    Nat → Message User Tm MessageComponent → JSON →
      Option (Message User Tm MessageComponent × Option DecodeError)
  | 0, _, _ => none
  | depth + 1, m, data =>
    let v : messageV User Tm MessageComponent := { message := Message.zero lib, RawComponents := .nil }
    match data with
    | .object members =>
      (decodeWireBounded lib (Message.unmarshalBounded lib depth) members v).map
        (assemble m lib.componentZero)
    | .null => some (assemble m lib.componentZero (.ok (v, none)))
    | .bool _ => some (assemble m lib.componentZero (.ok (v, some (.UnmarshalTypeError "bool"))))
    | .int _ => some (assemble m lib.componentZero (.ok (v, some (.UnmarshalTypeError "number"))))
    | .float _ => some (assemble m lib.componentZero (.ok (v, some (.UnmarshalTypeError "number"))))
    | .string _ => some (assemble m lib.componentZero (.ok (v, some (.UnmarshalTypeError "string"))))
    | .array _ => some (assemble m lib.componentZero (.ok (v, some (.UnmarshalTypeError "array"))))

/-! ### The component decoder of the specification -/

/-- Modelled from the spec: the Variant Catalog of §4.1, which `message.go` does not
contain: `lookup(discriminator) → decode rule | not-found`. A decode rule decodes the full
object against the shape of its variant and fails on a malformed shape. -/
abbrev Catalog (D MessageComponent : Type) := D → Option (JSON → Option MessageComponent)

/-- Modelled from the spec: the results of the Component Decoder of §4.2, which
`message.go` does not contain: a component value, the `UnrecognizedComponent` condition
for a discriminator without catalog entry, or the `MalformedComponent` condition with
the discriminator as far as it could be read. -/
inductive ComponentResult (D MessageComponent : Type) where
  | value (c : MessageComponent)
  | UnrecognizedComponent (discriminator : D)
  | MalformedComponent (discriminator : Option D)

/-- Modelled from the spec: the Component Decoder of §4.2, which `message.go` does not
contain: read the discriminator first, consult the catalog, and if there is an entry
decode the full object against that variant. -/
def componentDecoder {D : Type} (readDiscriminator : JSON → Option D)
    (catalog : Catalog D MessageComponent) (j : JSON) : ComponentResult D MessageComponent :=
  match readDiscriminator j with
  | none => .MalformedComponent none
  | some d =>
    match catalog d with
    | none => .UnrecognizedComponent d
    | some rule =>
      match rule j with
      | some c => .value c
      | none => .MalformedComponent (some d)

/-- Modelled from the spec: the lenient policy of §4.3 for the decoding of one element
of the `components` array, which `message.go` does not contain: "an unrecognized or
malformed element currently degrades to a zero-value placeholder rather than aborting". -/
def lenientComponent {D : Type} (readDiscriminator : JSON → Option D)
    (catalog : Catalog D MessageComponent) (placeholder : MessageComponent) (j : JSON) :
    MessageComponent :=
  match componentDecoder readDiscriminator catalog j with
  | .value c => c
  | .UnrecognizedComponent _ => placeholder
  | .MalformedComponent _ => placeholder

/-- Modelled from the spec: the collaborators of `message.go` with the lenient component
decoding of §4.3 in place; the placeholder is the zero value of `MessageComponent`. -/
def withLenientComponents {D : Type} (lib : Collaborators User Tm MessageComponent)
    (readDiscriminator : JSON → Option D) (catalog : Catalog D MessageComponent) :
    Collaborators User Tm MessageComponent :=
  { lib with
    decodeComponent := fun j => .ok (lenientComponent readDiscriminator catalog lib.componentZero j) }

end

/-! ## The `MessageType` constant block -/

/-- The constant block of lines 23-41, one entry per ConstSpec: the name and the written
expression `iota + k` as `some k` (`= iota` is `some 0`), or `none` where the expression
is left out. -/
def messageTypeBlock : List (String × Option Nat) :=
  [ ("MessageTypeDefault", some 0),
    ("MessageTypeRecipientAdd", none),
    ("MessageTypeRecipientRemove", none),
    ("MessageTypeCall", none),
    ("MessageTypeChannelNameChange", none),
    ("MessageTypeChannelIconChange", none),
    ("MessageTypeChannelPinnedMessage", none),
    ("MessageTypeGuildMemberJoin", none),
    ("MessageTypeUserPremiumGuildSubscription", none),
    ("MessageTypeUserPremiumGuildSubscriptionTier1", none),
    ("MessageTypeUserPremiumGuildSubscriptionTier2", none),
    ("MessageTypeUserPremiumGuildSubscriptionTier3", none),
    ("MessageTypeChannelFollowAdd", none),
    ("MessageTypeGuildDiscoveryDisqualified", some 1),
    ("MessageTypeGuildDiscoveryRequalified", none),
    ("MessageTypeReply", some 4),
    ("MessageTypeApplicationCommand", none) ]

/-- Evaluation of a Go constant block: `iota` is the index of the ConstSpec, and a
ConstSpec without expression repeats the last written expression. -/
def evalConstBlock : List (String × Option Nat) → Nat → Nat → List (String × Int)
  | [], _, _ => []
  | (name, some k) :: rest, iota, _ => (name, ((iota + k : Nat) : Int)) :: evalConstBlock rest (iota + 1) k
  | (name, none) :: rest, iota, k => (name, ((iota + k : Nat) : Int)) :: evalConstBlock rest (iota + 1) k

/-- The value of a constant of the block (0 for a name that is not declared). -/
def constValue (name : String) : Int :=
  match (evalConstBlock messageTypeBlock 0 0).find? (fun c => c.1 == name) with
  | some c => c.2
  | none => 0

def MessageTypeDefault : Int := constValue "MessageTypeDefault"
def MessageTypeRecipientAdd : Int := constValue "MessageTypeRecipientAdd"
def MessageTypeRecipientRemove : Int := constValue "MessageTypeRecipientRemove"
def MessageTypeCall : Int := constValue "MessageTypeCall"
def MessageTypeChannelNameChange : Int := constValue "MessageTypeChannelNameChange"
def MessageTypeChannelIconChange : Int := constValue "MessageTypeChannelIconChange"
def MessageTypeChannelPinnedMessage : Int := constValue "MessageTypeChannelPinnedMessage"
def MessageTypeGuildMemberJoin : Int := constValue "MessageTypeGuildMemberJoin"
def MessageTypeUserPremiumGuildSubscription : Int :=
  constValue "MessageTypeUserPremiumGuildSubscription"
def MessageTypeUserPremiumGuildSubscriptionTier1 : Int :=
  constValue "MessageTypeUserPremiumGuildSubscriptionTier1"
def MessageTypeUserPremiumGuildSubscriptionTier2 : Int :=
  constValue "MessageTypeUserPremiumGuildSubscriptionTier2"
def MessageTypeUserPremiumGuildSubscriptionTier3 : Int :=
  constValue "MessageTypeUserPremiumGuildSubscriptionTier3"
def MessageTypeChannelFollowAdd : Int := constValue "MessageTypeChannelFollowAdd"
def MessageTypeGuildDiscoveryDisqualified : Int :=
  constValue "MessageTypeGuildDiscoveryDisqualified"
def MessageTypeGuildDiscoveryRequalified : Int :=
  constValue "MessageTypeGuildDiscoveryRequalified"
def MessageTypeReply : Int := constValue "MessageTypeReply"
def MessageTypeApplicationCommand : Int := constValue "MessageTypeApplicationCommand"

/-- The message-kind constants in declaration order. -/
def messageTypes : List Int :=
  [ MessageTypeDefault, MessageTypeRecipientAdd, MessageTypeRecipientRemove, MessageTypeCall,
    MessageTypeChannelNameChange, MessageTypeChannelIconChange,
    MessageTypeChannelPinnedMessage, MessageTypeGuildMemberJoin,
    MessageTypeUserPremiumGuildSubscription, MessageTypeUserPremiumGuildSubscriptionTier1,
    MessageTypeUserPremiumGuildSubscriptionTier2, MessageTypeUserPremiumGuildSubscriptionTier3,
    MessageTypeChannelFollowAdd, MessageTypeGuildDiscoveryDisqualified,
    MessageTypeGuildDiscoveryRequalified, MessageTypeReply, MessageTypeApplicationCommand ]


/-! ## A concrete instance -/

/-- A stand-in for the record `User`: an identifier and a name. -/
structure SampleUser where
  ID : String
  Username : String
  deriving DecidableEq, Repr

def SampleUser.fields : List (Field SampleUser) :=
  [ Field.of "id" (·.ID) (fun a x => { a with ID := x }) decodeString,
    Field.of "username" (·.Username) (fun a x => { a with Username := x }) decodeString ]

/-- The value of the first member of an object with the given name. -/
def memberNamed (name : String) : JSON → Option JSON
  | .object members => (members.find? (fun kv => kv.1 == name)).map (·.2)
  | _ => none

/-- A stand-in for the integer discriminator of a component, read from member `type`. -/
def sampleDiscriminator (j : JSON) : Option Int :=
  match memberNamed "type" j with
  | some (.int k) => some k
  | _ => none

/-- A stand-in catalog with two variants: 1 (a row, no further members) and 2 (a button,
which needs a string `label`). A component value is `none` (the nil interface) or the
variant code with its label. -/
def sampleCatalog : Catalog Int (Option (Int × String)) := fun d =>
  if d = 1 then some (fun _ => some (some (1, "")))
  else if d = 2 then
    some (fun j =>
      match memberNamed "label" j with
      | some (.string s) => some (some (2, s))
      | _ => none)
  else none

/-- A concrete instance of the collaborators, for evaluating the decoder on concrete
payloads: times are kept as their text, the zero time being `0001-01-01T00:00:00Z`, and
the component decoder is strict (it fails on an element outside the catalog). -/
def sampleLib : Collaborators SampleUser String (Option (Int × String)) :=
  { userZero := { ID := "", Username := "" }
    timeZero := "0001-01-01T00:00:00Z"
    componentZero := none
    decodeUser := decodeStruct SampleUser.fields
    timeUnmarshalJSON := fun t j =>
      match j with
      | .null => (t, none)
      | .string s => (s, none)
      | _ => (t, some (.UnmarshalerError "Time.UnmarshalJSON: input is not a JSON string"))
    decodeComponent := fun j =>
      match componentDecoder sampleDiscriminator sampleCatalog j with
      | .value c => .ok c
      | _ => .error (.UnmarshalerError "component") }

/-- A message with some content, used as the receiver of a decode call. -/
def sampleReceiver : Message SampleUser String (Option (Int × String)) :=
  { Message.zero sampleLib with ID := "41", Content := "before", Components := .mk [some (1, "")] }

/-- A payload with two components and a referenced message that has one component. -/
def samplePayload : List (String × JSON) :=
  [ ("id", .string "42"),
    ("components", .array [.object [("type", .int 1)],
      .object [("type", .int 2), ("label", .string "ok")]]),
    ("referenced_message", .object [("id", .string "7"),
      ("components", .array [.object [("type", .int 2), ("label", .string "old")]])]) ]

/-- Whether a JSON value is an object. -/
def JSON.isObject : JSON → Bool
  | .object _ => true
  | _ => false

/-- A `components` array with a row, an element whose discriminator 9999 is not in the
catalog, a button that lacks its `label`, and a well-formed button. -/
def sampleComponents : List JSON :=
  [ .object [("type", .int 1)],
    .object [("type", .int 9999)],
    .object [("type", .int 2)],
    .object [("type", .int 2), ("label", .string "ok")] ]

/-! ## Encoding by the struct tags -/

section
variable {User Tm MessageComponent : Type}

/-- What `json.Marshal` of a `Message` uses from outside `message.go`: the encoding of a
`User` and the `MarshalJSON` method of `time.Time`; `none` is an error. -/
structure Encoders (User Tm : Type) where
  encodeUser : User → Option JSON
  timeMarshalJSON : Tm → Option JSON

/-- The member of a field tagged `omitempty`: left out when the value is empty. -/
def omitempty (empty : Bool) (name : String) (val : JSON) : List (String × JSON) :=
  if empty then [] else [(name, val)]

/-- The encodings of the elements of a slice, in order. -/
def encodeElems {α : Type} (elem : α → Option JSON) : List α → Option (List JSON)
  | [] => some []
  | x :: xs =>
    match elem x with
    | none => none
    | some j =>
      match encodeElems elem xs with
      | none => none
      | some js => some (j :: js)

/-- `json.Marshal` of a slice: `null` for the nil slice, else the array of the elements. -/
def encodeSlice {α : Type} (elem : α → Option JSON) : Slice α → Option JSON
  | .nil => some .null
  | .mk xs =>
    match encodeElems elem xs with
    | none => none
    | some js => some (.array js)

def EmbedField.encode (a : EmbedField) : JSON :=
  .object ([("name", .string a.Name), ("value", .string a.Value)] ++
    omitempty (!a.Inline) "inline" (.bool a.Inline))

def EmbedFooter.encode (a : EmbedFooter) : JSON :=
  .object ([("text", .string a.Text)] ++
    omitempty (a.IconURL == "") "icon_url" (.string a.IconURL) ++
    omitempty (a.ProxyIconURL == "") "proxy_icon_url" (.string a.ProxyIconURL))

def EmbedAuthor.encode (a : EmbedAuthor) : JSON :=
  .object (omitempty (a.Name == "") "name" (.string a.Name) ++
    omitempty (a.URL == "") "url" (.string a.URL) ++
    omitempty (a.IconURL == "") "icon_url" (.string a.IconURL) ++
    omitempty (a.ProxyIconURL == "") "proxy_icon_url" (.string a.ProxyIconURL))

def EmbedProvider.encode (a : EmbedProvider) : JSON :=
  .object (omitempty (a.Name == "") "name" (.string a.Name) ++
    omitempty (a.URL == "") "url" (.string a.URL))

/-- `json.Marshal` of an `Embed` by its struct tags; `omitempty` has no effect on the
fields of struct type, which are always written. -/
def Embed.encode (enc : Encoders User Tm) (e : Embed Tm) : Option JSON :=
  match enc.timeMarshalJSON e.Time with
  | none => none
  | some time =>
    some (.object (
      omitempty (e.Title == "") "title" (.string e.Title) ++
      omitempty (e.Type_ == "") "type" (.string e.Type_) ++
      omitempty (e.Description == "") "description" (.string e.Description) ++
      omitempty (e.URL == "") "url" (.string e.URL) ++
      [("timestamp", time)] ++
      omitempty (e.Color == 0) "color" (.int e.Color) ++
      [("footer", e.Footer.encode), ("provider", e.Provider.encode),
       ("author", e.Author.encode)] ++
      omitempty (e.Fields.len == 0) "fields" (.array (e.Fields.toList.map EmbedField.encode))))

/-- The object `json.Marshal` writes for a `Message` by its struct tags, given the
member written for `ReferencedMessage` (none for a nil pointer): the fields in
declaration order, `Components` (tagged `-`) never written. -/
def Message.encodeFields (enc : Encoders User Tm) (m : Message User Tm MessageComponent)
    (jReferenced : List (String × JSON)) : Option JSON :=
  match enc.encodeUser m.Author, enc.timeMarshalJSON m.Time, enc.timeMarshalJSON m.EditedTime,
    encodeSlice enc.encodeUser m.Mentions, encodeElems (Embed.encode enc) m.Embeds.toList with
  | some jAuthor, some jTime, some jEdited, some jMentions, some jEmbeds =>
    some (.object (
      omitempty (m.ID == "") "id" (.string m.ID) ++
      omitempty (m.ChannelID == "") "channel_id" (.string m.ChannelID) ++
      omitempty (m.GuildID == "") "guild_id" (.string m.GuildID) ++
      [("author", jAuthor)] ++
      omitempty (m.Content == "") "content" (.string m.Content) ++
      [("timestamp", jTime), ("edited_timestamp", jEdited)] ++
      omitempty (!m.TTS) "tts" (.bool m.TTS) ++
      omitempty (!m.MentionEveryone) "mention_everyone" (.bool m.MentionEveryone) ++
      [("mentions", jMentions)] ++
      omitempty (m.Type_ == 0) "type" (.int m.Type_) ++
      omitempty (!m.Pinned) "pinned" (.bool m.Pinned) ++
      omitempty (m.Embeds.len == 0) "embeds" (.array jEmbeds) ++
      omitempty (m.WebhookID == "") "webhook_id" (.string m.WebhookID) ++
      jReferenced))
  | _, _, _, _, _ => none

/-- `json.Marshal` of a `Message` by its struct tags: a nil `ReferencedMessage` is left
out (`omitempty`), any other one is encoded the same way. -/
def Message.encode (enc : Encoders User Tm) :
    Message User Tm MessageComponent → Option JSON
  | ⟨id, channelID, guildID, author, content, time, editedTime, tts, mentionEveryone,
      mentions, type, pinned, embeds, webhookID, components, none⟩ =>
    Message.encodeFields enc
      ⟨id, channelID, guildID, author, content, time, editedTime, tts, mentionEveryone,
        mentions, type, pinned, embeds, webhookID, components, none⟩ []
  | ⟨id, channelID, guildID, author, content, time, editedTime, tts, mentionEveryone,
      mentions, type, pinned, embeds, webhookID, components, some r⟩ =>
    match Message.encode enc r with
    | none => none
    | some j =>
      Message.encodeFields enc
        ⟨id, channelID, guildID, author, content, time, editedTime, tts, mentionEveryone,
          mentions, type, pinned, embeds, webhookID, components, some r⟩
        [("referenced_message", j)]

/-- What decoding makes of a slice tagged `omitempty` after it was encoded: an allocated
empty slice is left out of the encoding and comes back as the nil slice. -/
def Slice.omitEmpty {α : Type} : Slice α → Slice α
  | .mk [] => .nil
  | s => s

/-- Applying a function to the elements of a slice. -/
def Slice.map {α β : Type} (f : α → β) : Slice α → Slice β
  | .nil => .nil
  | .mk xs => .mk (xs.map f)

/-- An `Embed` as it comes back from its encoding: equal in every field, except that an
allocated empty `Fields` is nil. -/
def Embed.omitEmpty (e : Embed Tm) : Embed Tm := { e with Fields := e.Fields.omitEmpty }

/-- A `Message` as it comes back from its encoding: every flat field as it was, except
that an allocated empty `Embeds` (or `Fields` of an embed) is nil; `Components`, which is
not encoded, is empty; `ReferencedMessage` likewise. -/
def Message.omitEmpty : Message User Tm MessageComponent → Message User Tm MessageComponent
  | ⟨id, channelID, guildID, author, content, time, editedTime, tts, mentionEveryone,
      mentions, type, pinned, embeds, webhookID, _, referenced⟩ =>
    ⟨id, channelID, guildID, author, content, time, editedTime, tts, mentionEveryone,
      mentions, type, pinned, (embeds.map Embed.omitEmpty).omitEmpty, webhookID, .mk [],
      match referenced with
      | none => none
      | some r => some (Message.omitEmpty r)⟩

/-- Whether an integer is a value of Go `int`. -/
def isInt (i : Int) : Prop := -(2 ^ (intSize - 1) : Int) ≤ i ∧ i < 2 ^ (intSize - 1)

/-- Every `User` held by a message (author and mentions) satisfies `pu`, every
`time.Time` (of the message and of its embeds) satisfies `pt`, every `int` field (of the
message and of its embeds) holds a value of Go `int`, and the same goes for the
referenced message. -/
def Message.Forall (pu : User → Prop) (pt : Tm → Prop) :
    Message User Tm MessageComponent → Prop
  | ⟨_, _, _, author, _, time, editedTime, _, _, mentions, type, _, embeds, _, _, referenced⟩ =>
    pu author ∧ pt time ∧ pt editedTime ∧ (∀ u ∈ mentions.toList, pu u) ∧ isInt type ∧
      (∀ e ∈ embeds.toList, pt e.Time ∧ isInt e.Color) ∧
      match referenced with
      | none => True
      | some r => Message.Forall pu pt r

/-- Length of the chain of referenced messages. -/
def Message.chainLength : Message User Tm MessageComponent → Nat
  | ⟨_, _, _, _, _, _, _, _, _, _, _, _, _, _, _, referenced⟩ =>
    match referenced with
    | none => 0
    | some r => Message.chainLength r + 1

end

/-- What the round trip of a `Message` needs of the code outside `message.go`: the zero
`User` and the zero `time.Time` can be encoded, decoding into a value that can be encoded
yields one that can be encoded, and an encoding decoded into a zero value gives back the
value it was written from. -/
structure RoundTrip {User Tm MessageComponent : Type}
    (lib : Collaborators User Tm MessageComponent) (enc : Encoders User Tm) : Prop where
  zeroUser : ∃ j, enc.encodeUser lib.userZero = some j
  zeroTime : ∃ j, enc.timeMarshalJSON lib.timeZero = some j
  keepUser : ∀ j u u1 s, (∃ k, enc.encodeUser u = some k) → lib.decodeUser j u = .ok (u1, s) →
    ∃ k, enc.encodeUser u1 = some k
  keepTime : ∀ j t t1, (∃ k, enc.timeMarshalJSON t = some k) →
    lib.timeUnmarshalJSON t j = (t1, none) → ∃ k, enc.timeMarshalJSON t1 = some k
  user : ∀ u j, enc.encodeUser u = some j → lib.decodeUser j lib.userZero = .ok (u, none)
  time : ∀ t j, enc.timeMarshalJSON t = some j →
    lib.timeUnmarshalJSON lib.timeZero j = (t, none)

/-- The encoders that go with `sampleLib`. -/
def sampleEncoders : Encoders SampleUser String :=
  { encodeUser := fun u =>
      some (.object [("id", .string u.ID), ("username", .string u.Username)])
    timeMarshalJSON := fun t => some (.string t) }

/-- A payload whose `embeds` member is the empty array. -/
def emptyEmbedsPayload : Payload := .valid (.object [("embeds", .array [])])

/-- The encoding of the message decoded from `emptyEmbedsPayload`: no `embeds` member. -/
def emptyEmbedsEncoded : JSON :=
  .object [ ("author", .object [("id", .string ""), ("username", .string "")]),
    ("timestamp", .string "0001-01-01T00:00:00Z"),
    ("edited_timestamp", .string "0001-01-01T00:00:00Z"),
    ("mentions", .null) ]

section
variable {User Tm MessageComponent : Type}

/-- The content of one field of a `Message`, whatever its type. -/
inductive FieldContent (User Tm MessageComponent : Type) where
  | text (s : String)
  | user (u : User)
  | time (t : Tm)
  | flag (b : Bool)
  | users (us : Slice User)
  | number (i : Int)
  | embeds (es : Slice (Embed Tm))
  | components (cs : Slice MessageComponent)
  | reference (r : Option (Message User Tm MessageComponent))

/-- The content of the field of a `Message` that a field of `v` ends up in
(`RawComponents` ends up in `Components`). -/
def Message.content (m : Message User Tm MessageComponent) :
    WireField → FieldContent User Tm MessageComponent
  | .ID => .text m.ID
  | .ChannelID => .text m.ChannelID
  | .GuildID => .text m.GuildID
  | .Author => .user m.Author
  | .Content => .text m.Content
  | .Time => .time m.Time
  | .EditedTime => .time m.EditedTime
  | .TTS => .flag m.TTS
  | .MentionEveryone => .flag m.MentionEveryone
  | .Mentions => .users m.Mentions
  | .Type_ => .number m.Type_
  | .Pinned => .flag m.Pinned
  | .Embeds => .embeds m.Embeds
  | .WebhookID => .text m.WebhookID
  | .ReferencedMessage => .reference m.ReferencedMessage
  | .RawComponents => .components m.Components

/-- A payload mentions a field when it is an object with a member that is decoded into
that field. -/
def Payload.mentions (data : Payload) (f : WireField) : Prop :=
  match data with
  | .valid (.object members) => ∃ kv ∈ members, resolve kv.1 = some f
  | _ => False

end

/-! ## Theorems -/

/-- C10: the message-kind constants are 0 to 12 in declaration order, then 14, 15, 19
and 20; they are strictly increasing (so pairwise distinct), and none is 13, 16, 17
or 18. -/
theorem messageTypes_values :
    messageTypes = [0, 1, 2, 3, 4, 5, 6, 7, 8, 9, 10, 11, 12, 14, 15, 19, 20] ∧
    MessageTypeGuildDiscoveryDisqualified = 14 ∧ MessageTypeGuildDiscoveryRequalified = 15 ∧
    MessageTypeReply = 19 ∧ MessageTypeApplicationCommand = 20 ∧
    messageTypes.length = 17 ∧
    messageTypes.Pairwise (· < ·) ∧ messageTypes.Nodup ∧
    (13 : Int) ∉ messageTypes ∧ (16 : Int) ∉ messageTypes ∧ (17 : Int) ∉ messageTypes ∧
    (18 : Int) ∉ messageTypes := by
  decide

section
variable {User Tm MessageComponent : Type}

theorem take_set_succ {α : Type} (cs : List α) (i : Nat) (x : α) (h : i < cs.length) :
    (cs.set i x).take (i + 1) = cs.take i ++ [x] := by
  induction cs generalizing i with
  | nil => simp at h
  | cons c cs ih =>
    cases i with
    | zero => simp
    | succ i =>
      simp only [List.length_cons, Nat.add_lt_add_iff_right] at h
      simp [ih i h]

theorem copyComponents_mk (raws : List (unmarshalableMessageComponent MessageComponent))
    (i : Nat) (cs : List MessageComponent) (h : cs.length = i + raws.length) :
    copyComponents raws i (.mk cs) = .mk (cs.take i ++ raws.map (·.MessageComponent)) := by
  induction raws generalizing i cs with
  | nil =>
    simp only [List.length_nil, Nat.add_zero] at h
    simp [copyComponents, ← h]
  | cons raw rest ih =>
    simp only [List.length_cons] at h
    have hi : i < cs.length := by omega
    simp only [copyComponents, Slice.set]
    rw [ih (i + 1) (cs.set i raw.MessageComponent) (by simp; omega), take_set_succ cs i _ hi]
    simp

theorem assemble_ok (m : Message User Tm MessageComponent) (zero : MessageComponent)
    (v : messageV User Tm MessageComponent) :
    assemble m zero (.ok (v, none)) =
      ({ v.message with
          Components := .mk (v.RawComponents.toList.map (·.MessageComponent)) }, none) := by
  simp [assemble, Slice.make, Slice.len, copyComponents_mk]

end
section
variable {User Tm MessageComponent : Type}

theorem unmarshalValue_eq (lib : Collaborators User Tm MessageComponent)
    (m : Message User Tm MessageComponent) (data : JSON) :
    Message.unmarshalValue lib m data = assemble m lib.componentZero (unmarshalV lib data) := by
  cases data <;> simp [Message.unmarshalValue, unmarshalV]

theorem unmarshalValue_error (lib : Collaborators User Tm MessageComponent)
    (m m1 : Message User Tm MessageComponent) (data : JSON) (e : DecodeError)
    (h : Message.unmarshalValue lib m data = (m1, some e)) : m1 = m := by
  rw [unmarshalValue_eq] at h
  unfold assemble at h
  split at h <;> simp_all

theorem unmarshalValue_ok (lib : Collaborators User Tm MessageComponent)
    (m m1 : Message User Tm MessageComponent) (data : JSON)
    (h : Message.unmarshalValue lib m data = (m1, none)) :
    ∃ v, unmarshalV lib data = .ok (v, none) ∧
      m1 = { v.message with
              Components := .mk (v.RawComponents.toList.map (·.MessageComponent)) } := by
  rw [unmarshalValue_eq] at h
  generalize unmarshalV lib data = r at h
  match r, h with
  | .error e, h => simp [assemble] at h
  | .ok (v, some e), h => simp [assemble] at h
  | .ok (v, none), h =>
    rw [assemble_ok] at h
    exact ⟨v, rfl, (Prod.mk.inj h).1.symm⟩

theorem unmarshalValue_receiver (lib : Collaborators User Tm MessageComponent)
    (m1 m2 r : Message User Tm MessageComponent) (data : JSON)
    (h : Message.unmarshalValue lib m1 data = (r, none)) :
    Message.unmarshalValue lib m2 data = (r, none) := by
  obtain ⟨v, hv, hr⟩ := unmarshalValue_ok lib m1 r data h
  rw [unmarshalValue_eq, hv, assemble_ok, hr]

theorem saveError_eq_none {s1 s2 : Option DecodeError} (h : saveError s1 s2 = none) :
    s1 = none ∧ s2 = none := by
  cases s1 <;> simp_all [saveError]

theorem onMessage_ok {β : Type} (v v1 : messageV User Tm MessageComponent)
    (get : Message User Tm MessageComponent → β)
    (set : Message User Tm MessageComponent → β → Message User Tm MessageComponent)
    (dec : Decoder β) (val : JSON) (s : Option DecodeError)
    (h : onMessage v get set dec val = .ok (v1, s)) :
    ∃ b, dec val (get v.message) = .ok (b, s) ∧ v1 = { v with message := set v.message b } := by
  unfold onMessage at h
  split at h
  · simp at h
  · rename_i b s0 hb
    simp only [Except.ok.injEq, Prod.mk.injEq] at h
    exact ⟨b, by rw [hb, h.2], h.1.symm⟩

end

section
variable {User Tm MessageComponent : Type}

theorem decodeWire_field {β : Type} (lib : Collaborators User Tm MessageComponent)
    (f : WireField) (proj : messageV User Tm MessageComponent → β) (D : JSON → β → Decoded β)
    (keep : ∀ g nested val v v1 s, g ≠ f → storeField lib g nested val v = .ok (v1, s) →
      proj v1 = proj v)
    (hit : ∀ val v v1 s,
      storeField lib f (fun p => Message.unmarshalValue lib p val) val v = .ok (v1, s) →
        D val (proj v) = .ok (proj v1, s)) :
    ∀ ms v v1 s, decodeWire lib ms v = .ok (v1, s) →
      match lastMember f ms with
      | none => proj v1 = proj v
      | some val => ∃ old s1, D val old = .ok (proj v1, s1) ∧ (s = none → s1 = none) := by
  intro ms
  induction ms with
  | nil =>
    intro v v1 s h
    simp only [decodeWire, Except.ok.injEq, Prod.mk.injEq] at h
    simp [lastMember, h.1]
  | cons kv rest ih =>
    obtain ⟨key, val⟩ := kv
    intro v v1 s h
    simp only [decodeWire] at h
    cases hk : resolve key with
    | none =>
      rw [hk] at h
      have := ih v v1 s h
      simp only [lastMember, hk]
      cases hl : lastMember f rest with
      | none => simpa [hl] using this
      | some later => simpa [hl] using this
    | some g =>
      rw [hk] at h
      simp only at h
      cases hs : storeField lib g (fun p => Message.unmarshalValue lib p val) val v with
      | error e => simp [hs] at h
      | ok r =>
        obtain ⟨v2, s1⟩ := r
        rw [hs] at h
        simp only at h
        cases hr : decodeWire lib rest v2 with
        | error e => simp [hr] at h
        | ok r2 =>
          obtain ⟨v3, s2⟩ := r2
          rw [hr] at h
          simp only [Except.ok.injEq, Prod.mk.injEq] at h
          obtain ⟨h1, h2⟩ := h
          subst h1
          have := ih v2 v3 s2 hr
          simp only [lastMember, hk]
          cases hl : lastMember f rest with
          | some later =>
            rw [hl] at this
            obtain ⟨old, t, hD, ht⟩ := this
            exact ⟨old, t, hD, fun hn => ht (saveError_eq_none (h2.trans hn)).2⟩
          | none =>
            rw [hl] at this
            simp only at this
            by_cases hg : g = f
            · subst hg
              simp only [if_pos]
              refine ⟨proj v, s1, ?_, fun hn => (saveError_eq_none (h2.trans hn)).1⟩
              rw [this]
              exact hit val v v2 s1 hs
            · have hne : ¬ (some g = some f) := by simpa using hg
              simp only [if_neg hne]
              rw [this]
              exact keep g _ val v v2 s1 hg hs

theorem storeField_keep_raw (lib : Collaborators User Tm MessageComponent) (g : WireField)
    (nested : Message User Tm MessageComponent →
      Message User Tm MessageComponent × Option DecodeError)
    (val : JSON) (v v1 : messageV User Tm MessageComponent) (s : Option DecodeError)
    (hg : g ≠ .RawComponents) (h : storeField lib g nested val v = .ok (v1, s)) :
    v1.RawComponents = v.RawComponents := by
  cases g <;> first
    | exact absurd rfl hg
    | (simp only [storeField] at h
       obtain ⟨b, -, hv⟩ := onMessage_ok _ _ _ _ _ _ _ h
       rw [hv])

theorem storeField_keep_ref (lib : Collaborators User Tm MessageComponent) (g : WireField)
    (nested : Message User Tm MessageComponent →
      Message User Tm MessageComponent × Option DecodeError)
    (val : JSON) (v v1 : messageV User Tm MessageComponent) (s : Option DecodeError)
    (hg : g ≠ .ReferencedMessage) (h : storeField lib g nested val v = .ok (v1, s)) :
    v1.message.ReferencedMessage = v.message.ReferencedMessage := by
  cases g <;> first
    | exact absurd rfl hg
    | (simp only [storeField] at h
       obtain ⟨b, -, hv⟩ := onMessage_ok _ _ _ _ _ _ _ h
       rw [hv])
    | (simp only [storeField] at h
       split at h
       · simp at h
       · simp only [Except.ok.injEq, Prod.mk.injEq] at h
         rw [← h.1])

theorem storeField_hit_raw (lib : Collaborators User Tm MessageComponent)
    (nested : Message User Tm MessageComponent →
      Message User Tm MessageComponent × Option DecodeError)
    (val : JSON) (v v1 : messageV User Tm MessageComponent) (s : Option DecodeError)
    (h : storeField lib .RawComponents nested val v = .ok (v1, s)) :
    decodeSlice (decodeRaw lib) { MessageComponent := lib.componentZero } val v.RawComponents =
      .ok (v1.RawComponents, s) := by
  simp only [storeField] at h
  split at h
  · simp at h
  · rename_i raws s0 hd
    simp only [Except.ok.injEq, Prod.mk.injEq] at h
    rw [hd, ← h.1, h.2]

theorem storeField_hit_ref (lib : Collaborators User Tm MessageComponent)
    (nested : Message User Tm MessageComponent →
      Message User Tm MessageComponent × Option DecodeError)
    (val : JSON) (v v1 : messageV User Tm MessageComponent) (s : Option DecodeError)
    (h : storeField lib .ReferencedMessage nested val v = .ok (v1, s)) :
    decodeReferenced lib nested val v.message.ReferencedMessage =
      .ok (v1.message.ReferencedMessage, s) := by
  simp only [storeField] at h
  obtain ⟨b, hb, hv⟩ := onMessage_ok _ _ _ _ _ _ _ h
  rw [hb, hv]

theorem decodeElems_raw (lib : Collaborators User Tm MessageComponent)
    (zero : unmarshalableMessageComponent MessageComponent) :
    ∀ (xs : List JSON) (old ys : List (unmarshalableMessageComponent MessageComponent))
      (s : Option DecodeError),
      decodeElems (decodeRaw lib) zero xs old = .ok (ys, s) →
        ys.length = xs.length ∧
        ∀ (i : Nat) (x : JSON), xs[i]? = some x → ∃ y, ys[i]? = some y ∧
          lib.decodeComponent x = .ok y.MessageComponent := by
  intro xs
  induction xs with
  | nil =>
    intro old ys s h
    simp only [decodeElems, Except.ok.injEq, Prod.mk.injEq] at h
    simp [← h.1]
  | cons x xs ih =>
    intro old ys s h
    simp only [decodeElems, decodeRaw] at h
    cases hc : lib.decodeComponent x with
    | error e => simp [hc] at h
    | ok c =>
      rw [hc] at h
      simp only at h
      cases hr : decodeElems (decodeRaw lib) zero xs old.tail with
      | error e => simp [hr] at h
      | ok r =>
        obtain ⟨ys1, s2⟩ := r
        rw [hr] at h
        simp only [Except.ok.injEq, Prod.mk.injEq] at h
        obtain ⟨hl, hi⟩ := ih old.tail ys1 s2 hr
        rw [← h.1]
        refine ⟨by simp [hl], ?_⟩
        intro i x1 hx
        cases i with
        | zero =>
          simp only [List.getElem?_cons_zero, Option.some.injEq] at hx
          subst hx
          exact ⟨_, by simp, hc⟩
        | succ i =>
          simp only [List.getElem?_cons_succ] at hx
          simpa using hi i x1 hx

/-- The raw components after a successful `json.Unmarshal(data, &v)` of an object. -/
theorem unmarshalV_raw (lib : Collaborators User Tm MessageComponent)
    (members : List (String × JSON)) (v : messageV User Tm MessageComponent)
    (h : unmarshalV lib (.object members) = .ok (v, none)) :
    match lastMember .RawComponents members with
    | none => v.RawComponents = .nil
    | some val => ∃ old, decodeSlice (decodeRaw lib) { MessageComponent := lib.componentZero }
        val old = .ok (v.RawComponents, none) := by
  simp only [unmarshalV] at h
  have := decodeWire_field lib .RawComponents (·.RawComponents)
    (decodeSlice (decodeRaw lib) { MessageComponent := lib.componentZero })
    (fun g nested val v v1 s hg hs => storeField_keep_raw lib g nested val v v1 s hg hs)
    (fun val v v1 s hs => storeField_hit_raw lib _ val v v1 s hs) members _ v none h
  cases hl : lastMember .RawComponents members with
  | none => simpa [hl] using this
  | some val =>
    rw [hl] at this
    obtain ⟨old, s1, hD, hs⟩ := this
    exact ⟨old, by rw [hD, hs rfl]⟩

end

section
variable {User Tm MessageComponent : Type}

theorem lastMember_eq_none (f : WireField) (members : List (String × JSON))
    (h : ∀ kv ∈ members, resolve kv.1 ≠ some f) : lastMember f members = none := by
  induction members with
  | nil => rfl
  | cons kv rest ih =>
    obtain ⟨key, val⟩ := kv
    have h1 : resolve key ≠ some f := h (key, val) (List.mem_cons_self _ _)
    have h2 := ih (fun kv hkv => h kv (List.mem_cons_of_mem _ hkv))
    simp [lastMember, h2, h1]

theorem components_of_unmarshalValue (lib : Collaborators User Tm MessageComponent)
    (m m1 : Message User Tm MessageComponent) (members : List (String × JSON)) (xs : List JSON)
    (hdec : Message.unmarshalValue lib m (.object members) = (m1, none))
    (hcomp : lastMember .RawComponents members = some (.array xs)) :
    ∃ cs, m1.Components = .mk cs ∧ cs.length = xs.length ∧
      ∀ (i : Nat) (x : JSON), xs[i]? = some x →
        ∃ c, cs[i]? = some c ∧ lib.decodeComponent x = .ok c := by
  obtain ⟨v, hv, hm⟩ := unmarshalValue_ok lib m m1 _ hdec
  have hraw := unmarshalV_raw lib members v hv
  rw [hcomp] at hraw
  obtain ⟨old, hD⟩ := hraw
  simp only [decodeSlice] at hD
  split at hD
  · simp at hD
  · rename_i ys s hE
    simp only [Except.ok.injEq, Prod.mk.injEq] at hD
    obtain ⟨hl, hi⟩ := decodeElems_raw lib _ xs _ ys s hE
    refine ⟨ys.map (·.MessageComponent), ?_, by simp [hl], ?_⟩
    · rw [hm, ← hD.1]
      rfl
    · intro i x hx
      obtain ⟨y, hy, hc⟩ := hi i x hx
      exact ⟨y.MessageComponent, by simp [hy], hc⟩

/-- C1: when a payload object decodes successfully and its `components` member is an
array of N elements, `Components` has length N and its element `i` is the component
decoded from element `i` of the array. -/
theorem components_follow_wire_array (lib : Collaborators User Tm MessageComponent)
    (m m1 : Message User Tm MessageComponent) (members : List (String × JSON)) (xs : List JSON)
    (hdec : Message.UnmarshalJSON lib m (.valid (.object members)) = (m1, none))
    (hcomp : lastMember .RawComponents members = some (.array xs)) :
    ∃ cs, m1.Components = .mk cs ∧ cs.length = xs.length ∧
      ∀ (i : Nat) (x : JSON), xs[i]? = some x →
        ∃ c, cs[i]? = some c ∧ lib.decodeComponent x = .ok c :=
  components_of_unmarshalValue lib m m1 members xs hdec hcomp

/-- C2: when a payload object decodes successfully and has no `components` member, or
its `components` member is the empty array, `Components` is the allocated slice of
length 0, not the nil slice. -/
theorem components_empty_not_nil (lib : Collaborators User Tm MessageComponent)
    (m m1 : Message User Tm MessageComponent) (members : List (String × JSON))
    (hdec : Message.UnmarshalJSON lib m (.valid (.object members)) = (m1, none))
    (hcomp : (∀ kv ∈ members, resolve kv.1 ≠ some .RawComponents) ∨
      lastMember .RawComponents members = some (.array [])) :
    m1.Components = .mk [] ∧ m1.Components ≠ .nil ∧ m1.Components.len = 0 := by
  have key : m1.Components = .mk [] := by
    obtain ⟨v, hv, hm⟩ := unmarshalValue_ok lib m m1 _ hdec
    have hraw := unmarshalV_raw lib members v hv
    rcases hcomp with hmiss | hempty
    · rw [lastMember_eq_none _ _ hmiss] at hraw
      simp only at hraw
      rw [hm, hraw]
      rfl
    · obtain ⟨cs, hcs, hlen, -⟩ := components_of_unmarshalValue lib m m1 members [] hdec hempty
      rw [hcs]
      simp only [List.length_nil, List.length_eq_zero] at hlen
      rw [hlen]
  rw [key]
  exact ⟨rfl, by simp, rfl⟩

/-- C4: when `UnmarshalJSON` returns an error, the receiver is what it was before the
call. -/
theorem error_leaves_receiver (lib : Collaborators User Tm MessageComponent)
    (m m1 : Message User Tm MessageComponent) (data : Payload) (e : DecodeError)
    (herr : Message.UnmarshalJSON lib m data = (m1, some e)) : m1 = m := by
  cases data with
  | invalid =>
    simp only [Message.UnmarshalJSON, Prod.mk.injEq] at herr
    exact herr.1.symm
  | valid doc => exact unmarshalValue_error lib m m1 doc e herr

end

section
variable {User Tm MessageComponent : Type}

/-- C1, at a payload with two components: the hypotheses hold there. -/
theorem components_follow_wire_array_witness :
    (Message.UnmarshalJSON sampleLib sampleReceiver (.valid (.object samplePayload)) =
        ((Message.UnmarshalJSON sampleLib sampleReceiver (.valid (.object samplePayload))).1,
          none) ∧
      lastMember .RawComponents samplePayload =
        some (.array [.object [("type", .int 1)],
          .object [("type", .int 2), ("label", .string "ok")]])) ∧
    ∃ cs, (Message.UnmarshalJSON sampleLib sampleReceiver
        (.valid (.object samplePayload))).1.Components = .mk cs ∧
      cs.length = 2 ∧
      ∀ (i : Nat) (x : JSON),
        [JSON.object [("type", .int 1)],
          JSON.object [("type", .int 2), ("label", .string "ok")]][i]? = some x →
        ∃ c, cs[i]? = some c ∧ sampleLib.decodeComponent x = .ok c :=
  ⟨⟨rfl, rfl⟩, components_follow_wire_array sampleLib sampleReceiver _ samplePayload _ rfl rfl⟩

/-- C2, at the payload that only has an `id`: the hypotheses hold there. -/
theorem components_empty_not_nil_witness :
    Message.UnmarshalJSON sampleLib sampleReceiver (.valid (.object [("id", .string "1")])) =
        ((Message.UnmarshalJSON sampleLib sampleReceiver
          (.valid (.object [("id", .string "1")]))).1, none) ∧
    (Message.UnmarshalJSON sampleLib sampleReceiver
      (.valid (.object [("id", .string "1")]))).1.Components = .mk [] :=
  ⟨rfl, (components_empty_not_nil sampleLib sampleReceiver _ [("id", .string "1")] rfl
    (Or.inl (by decide))).1⟩

/-- C4, at a payload whose `id` is a number: the call fails there. -/
theorem error_leaves_receiver_witness :
    Message.UnmarshalJSON sampleLib sampleReceiver
        (.valid (.object [("content", .string "after"), ("id", .int 5)])) =
      (sampleReceiver, some (.UnmarshalTypeError "number")) ∧
    sampleReceiver = sampleReceiver :=
  ⟨rfl, error_leaves_receiver sampleLib sampleReceiver sampleReceiver
    (.valid (.object [("content", .string "after"), ("id", .int 5)]))
    (.UnmarshalTypeError "number") rfl⟩

/-- C3 as stated fails: the top-level value `null` is not an object, yet the call
returns no error and resets the receiver to a zero `Message` with empty `Components`. -/
theorem null_payload_accepted :
    JSON.null.isObject = false ∧
    Message.UnmarshalJSON sampleLib sampleReceiver (.valid .null) =
      ({ Message.zero sampleLib with Components := .mk [] }, none) :=
  ⟨rfl, rfl⟩

/-- C3, amended: a top-level array, string, number or boolean makes the call return an
`UnmarshalTypeError` (and leaves the receiver alone); the top-level value `null` makes it
return no error and sets the receiver to a zero `Message` with empty, allocated
`Components`. -/
theorem non_object_payload (lib : Collaborators User Tm MessageComponent)
    (m : Message User Tm MessageComponent) (doc : JSON) (hobj : doc.isObject = false) :
    (doc ≠ .null →
      Message.UnmarshalJSON lib m (.valid doc) = (m, some (.UnmarshalTypeError doc.kind))) ∧
    (doc = .null → Message.UnmarshalJSON lib m (.valid doc) =
      ({ Message.zero lib with Components := .mk [] }, none)) := by
  cases doc with
  | object members => simp [JSON.isObject] at hobj
  | null =>
    refine ⟨fun h => absurd rfl h, fun _ => ?_⟩
    simp only [Message.UnmarshalJSON, unmarshalValue_eq, unmarshalV, assemble_ok]
    rfl
  | bool b =>
    exact ⟨fun _ => by simp [Message.UnmarshalJSON, unmarshalValue_eq, unmarshalV, assemble,
      JSON.kind], fun h => by cases h⟩
  | int i =>
    exact ⟨fun _ => by simp [Message.UnmarshalJSON, unmarshalValue_eq, unmarshalV, assemble,
      JSON.kind], fun h => by cases h⟩
  | float lit =>
    exact ⟨fun _ => by simp [Message.UnmarshalJSON, unmarshalValue_eq, unmarshalV, assemble,
      JSON.kind], fun h => by cases h⟩
  | string s =>
    exact ⟨fun _ => by simp [Message.UnmarshalJSON, unmarshalValue_eq, unmarshalV, assemble,
      JSON.kind], fun h => by cases h⟩
  | array xs =>
    exact ⟨fun _ => by simp [Message.UnmarshalJSON, unmarshalValue_eq, unmarshalV, assemble,
      JSON.kind], fun h => by cases h⟩

/-- C3 amended, at the top-level array `[]`. -/
theorem non_object_payload_witness :
    (JSON.array []).isObject = false ∧
    Message.UnmarshalJSON sampleLib sampleReceiver (.valid (.array [])) =
      (sampleReceiver, some (.UnmarshalTypeError "array")) :=
  ⟨rfl, (non_object_payload sampleLib sampleReceiver (.array []) rfl).1 (by simp)⟩

end

section
variable {User Tm MessageComponent : Type}

/-- The referenced message after a successful `json.Unmarshal(data, &v)` of an object. -/
theorem unmarshalV_ref (lib : Collaborators User Tm MessageComponent)
    (members : List (String × JSON)) (v : messageV User Tm MessageComponent)
    (h : unmarshalV lib (.object members) = .ok (v, none)) :
    match lastMember .ReferencedMessage members with
    | none => v.message.ReferencedMessage = none
    | some val => ∃ old, decodeReferenced lib (fun p => Message.unmarshalValue lib p val) val old =
        .ok (v.message.ReferencedMessage, none) := by
  simp only [unmarshalV] at h
  have := decodeWire_field lib .ReferencedMessage (·.message.ReferencedMessage)
    (fun val old => decodeReferenced lib (fun p => Message.unmarshalValue lib p val) val old)
    (fun g nested val v v1 s hg hs => storeField_keep_ref lib g nested val v v1 s hg hs)
    (fun val v v1 s hs => storeField_hit_ref lib _ val v v1 s hs) members _ v none h
  cases hl : lastMember .ReferencedMessage members with
  | none =>
    rw [hl] at this
    simpa [Message.zero] using this
  | some val =>
    rw [hl] at this
    obtain ⟨old, s1, hD, hs⟩ := this
    have hD1 : decodeReferenced lib (fun p => Message.unmarshalValue lib p val) val old =
        .ok (v.message.ReferencedMessage, s1) := hD
    exact ⟨old, by rw [hD1, hs rfl]⟩

theorem decodeReferenced_ok (lib : Collaborators User Tm MessageComponent)
    (nested : Message User Tm MessageComponent →
      Message User Tm MessageComponent × Option DecodeError)
    (val : JSON) (old res : Option (Message User Tm MessageComponent)) (s : Option DecodeError)
    (hval : val ≠ .null) (h : decodeReferenced lib nested val old = .ok (res, s)) :
    ∃ r, res = some r ∧ nested (old.getD (Message.zero lib)) = (r, none) := by
  cases val with
  | null => exact absurd rfl hval
  | bool _ | int _ | float _ | string _ | array _ | object _ =>
    simp only [decodeReferenced] at h
    split at h
    · rename_i r hn
      simp only [Except.ok.injEq, Prod.mk.injEq] at h
      exact ⟨r, h.1.symm, hn⟩
    · simp at h

/-- C5: after a successful decode of a payload object, `ReferencedMessage` is nil when
there is no `referenced_message` member or it is `null`; otherwise it is the `Message`
that `Message.UnmarshalJSON` itself yields on the nested value (whatever the receiver),
so its `Components` follow the nested `components` array element by element. -/
theorem referenced_message_decoded (lib : Collaborators User Tm MessageComponent)
    (m m1 : Message User Tm MessageComponent) (members : List (String × JSON))
    (hdec : Message.UnmarshalJSON lib m (.valid (.object members)) = (m1, none)) :
    (((∀ kv ∈ members, resolve kv.1 ≠ some .ReferencedMessage) ∨
        lastMember .ReferencedMessage members = some .null) → m1.ReferencedMessage = none) ∧
    (∀ nested, lastMember .ReferencedMessage members = some nested → nested ≠ .null →
      ∃ r, m1.ReferencedMessage = some r ∧
        (∀ m0, Message.UnmarshalJSON lib m0 (.valid nested) = (r, none)) ∧
        (∀ inner xs, nested = .object inner →
          lastMember .RawComponents inner = some (.array xs) →
          ∃ cs, r.Components = .mk cs ∧ cs.length = xs.length ∧
            ∀ (i : Nat) (x : JSON), xs[i]? = some x →
              ∃ c, cs[i]? = some c ∧ lib.decodeComponent x = .ok c)) := by
  obtain ⟨v, hv, hm⟩ := unmarshalValue_ok lib m m1 _ hdec
  have href := unmarshalV_ref lib members v hv
  have hfield : m1.ReferencedMessage = v.message.ReferencedMessage := by rw [hm]
  refine ⟨?_, ?_⟩
  · rintro (hmiss | hnull)
    · rw [lastMember_eq_none _ _ hmiss] at href
      rw [hfield]
      exact href
    · rw [hnull] at href
      obtain ⟨old, hD⟩ := href
      simp only [decodeReferenced, Except.ok.injEq, Prod.mk.injEq, and_true] at hD
      rw [hfield, ← hD]
  · intro nested hlast hne
    rw [hlast] at href
    obtain ⟨old, hD⟩ := href
    obtain ⟨r, hr, hcall⟩ := decodeReferenced_ok lib _ nested old _ none hne hD
    refine ⟨r, by rw [hfield, hr], ?_, ?_⟩
    · intro m0
      exact unmarshalValue_receiver lib _ m0 r nested hcall
    · intro inner xs hobj hcomp
      subst hobj
      exact components_of_unmarshalValue lib _ r inner xs hcall hcomp

/-- C5, at the sample payload, whose referenced message has one component. -/
theorem referenced_message_decoded_witness :
    Message.UnmarshalJSON sampleLib sampleReceiver (.valid (.object samplePayload)) =
        ((Message.UnmarshalJSON sampleLib sampleReceiver (.valid (.object samplePayload))).1,
          none) ∧
    ∃ r, (Message.UnmarshalJSON sampleLib sampleReceiver
        (.valid (.object samplePayload))).1.ReferencedMessage = some r ∧
      r.ID = "7" ∧ r.Components = .mk [some (2, "old")] :=
  ⟨rfl, by
    obtain ⟨r, hr, hcall, -⟩ :=
      (referenced_message_decoded sampleLib sampleReceiver _ samplePayload rfl).2
        (.object [("id", .string "7"),
          ("components", .array [.object [("type", .int 2), ("label", .string "old")]])])
        rfl (by simp)
    have h0 := hcall (Message.zero sampleLib)
    have hr0 : r = (Message.UnmarshalJSON sampleLib (Message.zero sampleLib)
        (.valid (.object [("id", .string "7"),
          ("components", .array [.object [("type", .int 2), ("label", .string "old")]])]))).1 := by
      rw [h0]
    exact ⟨r, hr, by rw [hr0]; rfl, by rw [hr0]; rfl⟩⟩

end

section
variable {User Tm MessageComponent : Type}

theorem storeField_nestedCall (lib : Collaborators User Tm MessageComponent)
    (self : Message User Tm MessageComponent → JSON →
      Option (Message User Tm MessageComponent × Option DecodeError))
    (f : WireField) (val : JSON) (v : messageV User Tm MessageComponent)
    (hself : f = .ReferencedMessage → val ≠ .null → ∀ p,
      self p val = some (Message.unmarshalValue lib p val)) :
    ∃ returned, nestedCall lib self f val v = some returned ∧
      storeField lib f (fun _ => returned) val v =
        storeField lib f (fun p => Message.unmarshalValue lib p val) val v := by
  by_cases hf : f = .ReferencedMessage
  · subst hf
    by_cases hnull : val = .null
    · subst hnull
      exact ⟨_, rfl, rfl⟩
    · refine ⟨Message.unmarshalValue lib
        (v.message.ReferencedMessage.getD (Message.zero lib)) val, ?_, ?_⟩
      · have := hself rfl hnull (v.message.ReferencedMessage.getD (Message.zero lib))
        cases val <;> first
          | exact absurd rfl hnull
          | simpa only [nestedCall] using this
      · cases val <;> first
          | exact absurd rfl hnull
          | rfl
  · cases f <;> first
      | exact absurd rfl hf
      | exact ⟨_, rfl, rfl⟩

theorem decodeWireBounded_eq (lib : Collaborators User Tm MessageComponent) (depth : Nat)
    (hself : ∀ (doc : JSON) (p : Message User Tm MessageComponent), refDepth doc < depth →
      Message.unmarshalBounded lib depth p doc = some (Message.unmarshalValue lib p doc)) :
    ∀ (ms : List (String × JSON)) (v : messageV User Tm MessageComponent),
      refDepthMembers ms ≤ depth →
        decodeWireBounded lib (Message.unmarshalBounded lib depth) ms v =
          some (decodeWire lib ms v) := by
  intro ms
  induction ms with
  | nil =>
    intro v _
    simp [decodeWireBounded, decodeWire]
  | cons kv rest ih =>
    obtain ⟨key, val⟩ := kv
    intro v hd
    simp only [refDepthMembers] at hd
    have hrest : refDepthMembers rest ≤ depth := le_trans (le_max_right _ _) hd
    simp only [decodeWireBounded, decodeWire]
    cases hk : resolve key with
    | none => simpa using ih v hrest
    | some f =>
      simp only
      obtain ⟨returned, hcall, hstore⟩ := storeField_nestedCall lib
        (Message.unmarshalBounded lib depth) f val v (by
          intro hf _ p
          apply hself
          have := le_trans (le_max_left _ _) hd
          rw [hk, hf] at this
          simp only [if_pos] at this
          omega)
      rw [hcall]
      simp only
      rw [hstore]
      cases hs : storeField lib f (fun p => Message.unmarshalValue lib p val) val v with
      | error e => rfl
      | ok r =>
        obtain ⟨v1, s1⟩ := r
        simp only
        rw [ih v1 hrest]
        cases decodeWire lib rest v1 with
        | error e => rfl
        | ok r2 => rfl

theorem unmarshalBounded_eq (lib : Collaborators User Tm MessageComponent) :
    ∀ (depth : Nat) (doc : JSON) (m : Message User Tm MessageComponent), refDepth doc < depth →
      Message.unmarshalBounded lib depth m doc = some (Message.unmarshalValue lib m doc) := by
  intro depth
  induction depth with
  | zero => intro doc m h; omega
  | succ depth ih =>
    intro doc m h
    cases doc with
    | object members =>
      simp only [refDepth] at h
      simp only [Message.unmarshalBounded, Message.unmarshalValue]
      rw [decodeWireBounded_eq lib depth ih members _ (by omega)]
      rfl
    | null | bool _ | int _ | float _ | string _ | array _ =>
      simp [Message.unmarshalBounded, Message.unmarshalValue]

/-- C8: `Message.UnmarshalJSON` is total, and its nested invocations of itself stay
within the nesting depth of `referenced_message` members of the document: run with room
for more invocations than that depth, it never exceeds the room and returns the result
of the call. -/
theorem unmarshal_within_reference_depth (lib : Collaborators User Tm MessageComponent)
    (depth : Nat) (doc : JSON) (m : Message User Tm MessageComponent)
    (hdepth : refDepth doc < depth) :
    Message.unmarshalBounded lib depth m doc =
      some (Message.UnmarshalJSON lib m (.valid doc)) :=
  unmarshalBounded_eq lib depth doc m hdepth

/-- C8, at the sample payload, whose `referenced_message` nesting depth is 1. -/
theorem unmarshal_within_reference_depth_witness :
    refDepth (.object samplePayload) < 2 ∧
    Message.unmarshalBounded sampleLib 2 sampleReceiver (.object samplePayload) =
      some (Message.UnmarshalJSON sampleLib sampleReceiver (.valid (.object samplePayload))) :=
  ⟨by decide, unmarshal_within_reference_depth sampleLib 2 (.object samplePayload)
    sampleReceiver (by decide)⟩

end

section
variable {User Tm MessageComponent : Type}

theorem saveError_assoc (a b c : Option DecodeError) :
    saveError (saveError a b) c = saveError a (saveError b c) := by
  cases a <;> rfl

theorem decodeWire_append (lib : Collaborators User Tm MessageComponent)
    (pre rest : List (String × JSON)) :
    ∀ v : messageV User Tm MessageComponent,
      decodeWire lib (pre ++ rest) v =
        match decodeWire lib pre v with
        | .error e => .error e
        | .ok (v1, s1) =>
          match decodeWire lib rest v1 with
          | .error e => .error e
          | .ok (v2, s2) => .ok (v2, saveError s1 s2) := by
  induction pre with
  | nil =>
    intro v
    simp only [List.nil_append, decodeWire]
    cases decodeWire lib rest v with
    | error e => rfl
    | ok r => rfl
  | cons kv pre ih =>
    obtain ⟨key, val⟩ := kv
    intro v
    simp only [List.cons_append, decodeWire, List.append_eq]
    cases resolve key with
    | none => exact ih v
    | some f =>
      simp only
      cases storeField lib f (fun p => Message.unmarshalValue lib p val) val v with
      | error e => rfl
      | ok r =>
        obtain ⟨v1, s1⟩ := r
        simp only
        rw [ih v1]
        cases decodeWire lib pre v1 with
        | error e => rfl
        | ok r1 =>
          obtain ⟨v2, s2⟩ := r1
          simp only
          cases decodeWire lib rest v2 with
          | error e => rfl
          | ok r2 =>
            obtain ⟨v3, s3⟩ := r2
            simp only [saveError_assoc]

theorem storeField_with_raw (lib : Collaborators User Tm MessageComponent) (g : WireField)
    (nested : Message User Tm MessageComponent →
      Message User Tm MessageComponent × Option DecodeError)
    (val : JSON) (v : messageV User Tm MessageComponent)
    (raws : Slice (unmarshalableMessageComponent MessageComponent))
    (hg : g ≠ .RawComponents) :
    storeField lib g nested val { v with RawComponents := raws } =
      match storeField lib g nested val v with
      | .error e => .error e
      | .ok (v1, s) => .ok ({ v1 with RawComponents := raws }, s) := by
  cases g <;> first
    | exact absurd rfl hg
    | (simp only [storeField, onMessage]
       split <;> rfl)

theorem decodeWire_with_raw (lib : Collaborators User Tm MessageComponent)
    (raws : Slice (unmarshalableMessageComponent MessageComponent))
    (ms : List (String × JSON)) (hms : ∀ kv ∈ ms, resolve kv.1 ≠ some .RawComponents) :
    ∀ v : messageV User Tm MessageComponent,
      decodeWire lib ms { v with RawComponents := raws } =
        match decodeWire lib ms v with
        | .error e => .error e
        | .ok (v1, s) => .ok ({ v1 with RawComponents := raws }, s) := by
  induction ms with
  | nil => intro v; simp [decodeWire]
  | cons kv rest ih =>
    obtain ⟨key, val⟩ := kv
    intro v
    have hkey : resolve key ≠ some .RawComponents := hms (key, val) (List.mem_cons_self _ _)
    have ih1 := ih (fun kv hkv => hms kv (List.mem_cons_of_mem _ hkv))
    simp only [decodeWire]
    cases hk : resolve key with
    | none => exact ih1 v
    | some g =>
      have hg : g ≠ .RawComponents := by
        intro h
        rw [hk, h] at hkey
        exact hkey rfl
      simp only
      rw [storeField_with_raw lib g _ val v raws hg]
      cases storeField lib g (fun p => Message.unmarshalValue lib p val) val v with
      | error e => rfl
      | ok r =>
        obtain ⟨v1, s1⟩ := r
        simp only
        rw [ih1 v1]
        cases decodeWire lib rest v1 with
        | error e => rfl
        | ok r1 => rfl

theorem decodeElems_lenient {D : Type} (lib : Collaborators User Tm MessageComponent)
    (readDiscriminator : JSON → Option D) (catalog : Catalog D MessageComponent)
    (zero : unmarshalableMessageComponent MessageComponent) :
    ∀ (xs : List JSON) (old : List (unmarshalableMessageComponent MessageComponent)),
      decodeElems (decodeRaw (withLenientComponents lib readDiscriminator catalog)) zero xs old =
        .ok (xs.map (fun x =>
          { MessageComponent := lenientComponent readDiscriminator catalog lib.componentZero x }),
          none) := by
  intro xs
  induction xs with
  | nil => intro old; rfl
  | cons x xs ih =>
    intro old
    simp only [decodeElems, ih]
    rfl

theorem unmarshalValue_no_error (lib : Collaborators User Tm MessageComponent)
    (m : Message User Tm MessageComponent) (doc : JSON)
    (h : (Message.unmarshalValue lib m doc).2 = none) :
    ∃ v, unmarshalV lib doc = .ok (v, none) := by
  rw [unmarshalValue_eq] at h
  generalize unmarshalV lib doc = r at h
  match r, h with
  | .error e, h => simp [assemble] at h
  | .ok (v, some e), h => simp [assemble] at h
  | .ok (v, none), _ => exact ⟨v, rfl⟩

/-- C6, for the lenient component decoding of the specification: when the payload without
a `components` member decodes, adding a `components` array whose elements may be
unrecognized or malformed still decodes without error; `Components` keeps the length of
the array, an element that cannot be decoded is the placeholder at its own position, and
every other element is the decoded component at its own position. -/
theorem lenient_components_keep_message {D : Type}
    (lib : Collaborators User Tm MessageComponent)
    (readDiscriminator : JSON → Option D) (catalog : Catalog D MessageComponent)
    (m : Message User Tm MessageComponent) (pre post : List (String × JSON)) (key : String)
    (xs : List JSON)
    (hkey : resolve key = some .RawComponents)
    (hpost : ∀ kv ∈ post, resolve kv.1 ≠ some .RawComponents)
    (hflat : (Message.UnmarshalJSON (withLenientComponents lib readDiscriminator catalog) m
      (.valid (.object (pre ++ post)))).2 = none) :
    ∃ m1, Message.UnmarshalJSON (withLenientComponents lib readDiscriminator catalog) m
        (.valid (.object (pre ++ (key, .array xs) :: post))) = (m1, none) ∧
      m1.Components = .mk (xs.map (lenientComponent readDiscriminator catalog lib.componentZero)) ∧
      m1.Components.len = xs.length ∧
      ∀ (i : Nat) (x : JSON), xs[i]? = some x →
        (∀ c, componentDecoder readDiscriminator catalog x = .value c →
          m1.Components.toList[i]? = some c) ∧
        ((∀ c, componentDecoder readDiscriminator catalog x ≠ .value c) →
          m1.Components.toList[i]? = some lib.componentZero) := by
  obtain ⟨vF, hF⟩ := unmarshalValue_no_error _ m _ hflat
  simp only [unmarshalV, decodeWire_append] at hF
  obtain ⟨v0, hv0⟩ : ∃ v0 : messageV User Tm MessageComponent,
      messageV.mk (Message.zero (withLenientComponents lib readDiscriminator catalog)) .nil = v0 :=
    ⟨_, rfl⟩
  rw [hv0] at hF
  cases hpre : decodeWire (withLenientComponents lib readDiscriminator catalog) pre v0 with
  | error e => simp [hpre] at hF
  | ok r =>
    obtain ⟨v1, s1⟩ := r
    rw [hpre] at hF
    simp only at hF
    cases hpostd : decodeWire (withLenientComponents lib readDiscriminator catalog) post v1 with
    | error e => simp [hpostd] at hF
    | ok r2 =>
      obtain ⟨v2, s2⟩ := r2
      rw [hpostd] at hF
      simp only [Except.ok.injEq, Prod.mk.injEq] at hF
      obtain ⟨hs1, hs2⟩ := saveError_eq_none hF.2
      subst hs1 hs2
      have hstore : storeField (withLenientComponents lib readDiscriminator catalog)
          .RawComponents
          (fun p => Message.unmarshalValue (withLenientComponents lib readDiscriminator catalog)
            p (.array xs)) (.array xs) v1 =
          .ok ({ v1 with RawComponents := .mk (xs.map (fun x =>
            { MessageComponent :=
                lenientComponent readDiscriminator catalog lib.componentZero x })) }, none) := by
        simp only [storeField, decodeSlice, decodeElems_lenient]
      have hcons : decodeWire (withLenientComponents lib readDiscriminator catalog)
          ((key, .array xs) :: post) v1 =
          .ok ({ v2 with RawComponents := .mk (xs.map (fun x =>
            { MessageComponent :=
                lenientComponent readDiscriminator catalog lib.componentZero x })) }, none) := by
        rw [decodeWire]
        simp only [hkey]
        rw [hstore]
        simp only
        rw [decodeWire_with_raw _ _ post hpost, hpostd]
        rfl
      have hall : unmarshalV (withLenientComponents lib readDiscriminator catalog)
          (.object (pre ++ (key, .array xs) :: post)) =
          .ok ({ v2 with RawComponents := .mk (xs.map (fun x =>
            { MessageComponent :=
                lenientComponent readDiscriminator catalog lib.componentZero x })) }, none) := by
        show decodeWire _ (pre ++ (key, .array xs) :: post) _ = _
        rw [decodeWire_append, hv0, hpre]
        simp only
        rw [hcons]
        rfl
      have hres : Message.UnmarshalJSON (withLenientComponents lib readDiscriminator catalog) m
          (.valid (.object (pre ++ (key, .array xs) :: post))) =
          ({ v2.message with
              Components := .mk (xs.map
                (lenientComponent readDiscriminator catalog lib.componentZero)) }, none) := by
        simp only [Message.UnmarshalJSON]
        rw [unmarshalValue_eq, hall, assemble_ok]
        simp [Slice.toList, List.map_map, Function.comp_def]
      refine ⟨_, hres, rfl, by simp [Slice.len, Slice.toList], ?_⟩
      intro i x hx
      simp only [Slice.toList]
      refine ⟨fun c hc => ?_, fun hno => ?_⟩
      · simp [hx, lenientComponent, hc]
      · simp only [List.getElem?_map, hx, Option.map_some', Option.some.injEq]
        unfold lenientComponent
        split
        · rename_i c hc
          exact absurd hc (hno c)
        · rfl
        · rfl

end

/-- C6, at a `components` array with an unrecognized and a malformed element: the
placeholders stand at positions 1 and 2, the decoded components at positions 0 and 3. -/
theorem lenient_components_keep_message_witness :
    (resolve "components" = some .RawComponents ∧
      (∀ kv ∈ ([] : List (String × JSON)), resolve kv.1 ≠ some .RawComponents) ∧
      (Message.UnmarshalJSON (withLenientComponents sampleLib sampleDiscriminator sampleCatalog)
        sampleReceiver (.valid (.object ([("id", .string "42")] ++ [])))).2 = none) ∧
    ∃ m1, Message.UnmarshalJSON
        (withLenientComponents sampleLib sampleDiscriminator sampleCatalog) sampleReceiver
        (.valid (.object ([("id", .string "42")] ++ ("components", .array sampleComponents) ::
          []))) = (m1, none) ∧
      m1.Components = .mk [some (1, ""), none, none, some (2, "ok")] :=
  ⟨⟨rfl, by simp, rfl⟩, by
    obtain ⟨m1, h1, h2, -⟩ := lenient_components_keep_message sampleLib sampleDiscriminator
      sampleCatalog sampleReceiver [("id", .string "42")] [] "components" sampleComponents
      rfl (by simp) rfl
    exact ⟨m1, h1, h2⟩⟩

section
variable {User Tm MessageComponent : Type}

theorem decodeMembers_present {α : Type} (fs : List (Field α)) (name : String) (f : Field α)
    (val : JSON) (rest : List (String × JSON)) (a a1 : α) (r : Decoded α)
    (hfind : findField fs name = some f) (hst : f.store val a = .ok (a1, none))
    (hrest : decodeMembers fs rest a1 = r) :
    decodeMembers fs ((name, val) :: rest) a = r := by
  rw [decodeMembers]
  simp only [hfind, hst, hrest]
  cases r with
  | error e => rfl
  | ok r => rfl

theorem decodeMembers_omitempty {α : Type} (fs : List (Field α)) (name : String) (f : Field α)
    (val : JSON) (rest : List (String × JSON)) (a a1 : α) (c : Bool) (r : Decoded α)
    (hfind : findField fs name = some f) (hst : c = false → f.store val a = .ok (a1, none))
    (hc : c = true → a1 = a) (hrest : decodeMembers fs rest a1 = r) :
    decodeMembers fs (omitempty c name val ++ rest) a = r := by
  cases c with
  | true =>
    rw [← hc rfl]
    exact hrest
  | false => exact decodeMembers_present fs name f val rest a a1 r hfind (hst rfl) hrest

theorem embedFooter_decode_encode (a : EmbedFooter) :
    decodeStruct EmbedFooter.fields a.encode EmbedFooter.zero = .ok (a, none) := by
  obtain ⟨text, icon, proxy⟩ := a
  simp only [EmbedFooter.encode, decodeStruct, List.append_assoc, List.singleton_append]
  apply decodeMembers_present EmbedFooter.fields "text"
  case hfind => rfl
  case hst => rfl
  apply decodeMembers_omitempty EmbedFooter.fields "icon_url"
  case hfind => rfl
  case hst => exact fun _ => rfl
  case hc => intro h; simp at h; subst h; rfl
  rw [← List.append_nil (omitempty _ "proxy_icon_url" _)]
  apply decodeMembers_omitempty EmbedFooter.fields "proxy_icon_url"
  case hfind => rfl
  case hst => exact fun _ => rfl
  case hc => intro h; simp at h; subst h; rfl
  rfl


theorem embedAuthor_decode_encode (a : EmbedAuthor) :
    decodeStruct EmbedAuthor.fields a.encode EmbedAuthor.zero = .ok (a, none) := by
  obtain ⟨name, url, icon, proxy⟩ := a
  simp only [EmbedAuthor.encode, decodeStruct, List.append_assoc]
  apply decodeMembers_omitempty EmbedAuthor.fields "name"
  case hfind => rfl
  case hst => exact fun _ => rfl
  case hc => intro h; simp at h; subst h; rfl
  apply decodeMembers_omitempty EmbedAuthor.fields "url"
  case hfind => rfl
  case hst => exact fun _ => rfl
  case hc => intro h; simp at h; subst h; rfl
  apply decodeMembers_omitempty EmbedAuthor.fields "icon_url"
  case hfind => rfl
  case hst => exact fun _ => rfl
  case hc => intro h; simp at h; subst h; rfl
  rw [← List.append_nil (omitempty _ "proxy_icon_url" _)]
  apply decodeMembers_omitempty EmbedAuthor.fields "proxy_icon_url"
  case hfind => rfl
  case hst => exact fun _ => rfl
  case hc => intro h; simp at h; subst h; rfl
  rfl

theorem embedProvider_decode_encode (a : EmbedProvider) :
    decodeStruct EmbedProvider.fields a.encode EmbedProvider.zero = .ok (a, none) := by
  obtain ⟨name, url⟩ := a
  simp only [EmbedProvider.encode, decodeStruct, List.append_assoc]
  apply decodeMembers_omitempty EmbedProvider.fields "name"
  case hfind => rfl
  case hst => exact fun _ => rfl
  case hc => intro h; simp at h; subst h; rfl
  rw [← List.append_nil (omitempty _ "url" _)]
  apply decodeMembers_omitempty EmbedProvider.fields "url"
  case hfind => rfl
  case hst => exact fun _ => rfl
  case hc => intro h; simp at h; subst h; rfl
  rfl

theorem embedField_decode_encode (a : EmbedField) :
    decodeStruct EmbedField.fields a.encode EmbedField.zero = .ok (a, none) := by
  obtain ⟨name, value, inline⟩ := a
  simp only [EmbedField.encode, decodeStruct, List.cons_append, List.nil_append]
  apply decodeMembers_present EmbedField.fields "name"
  case hfind => rfl
  case hst => rfl
  apply decodeMembers_present EmbedField.fields "value"
  case hfind => rfl
  case hst => rfl
  rw [← List.append_nil (omitempty _ "inline" _)]
  apply decodeMembers_omitempty EmbedField.fields "inline"
  case hfind => rfl
  case hst => exact fun _ => rfl
  case hc => intro h; simp at h; subst h; rfl
  rfl

theorem Field.of_store {α β : Type} (name : String) (get : α → β) (set : α → β → α)
    (dec : Decoder β) (val : JSON) (a : α) (b : β) (h : dec val (get a) = .ok (b, none)) :
    (Field.of name get set dec).store val a = .ok (set a b, none) := by
  simp [Field.of, h]

theorem decodeUnmarshaler_ok {α : Type} (unmarshalJSON : α → JSON → α × Option DecodeError)
    (val : JSON) (a b : α) (h : unmarshalJSON a val = (b, none)) :
    decodeUnmarshaler unmarshalJSON val a = .ok (b, none) := by
  simp [decodeUnmarshaler, h]

theorem decodeInt_ok (i old : Int) (h : isInt i) : decodeInt (.int i) old = .ok (i, none) := by
  unfold isInt at h
  simp [decodeInt, h]

theorem decodeElems_fresh {α : Type} (elem : Decoder α) (zero : α) :
    ∀ (js : List JSON) (ys : List α),
      List.Forall₂ (fun j y => elem j zero = .ok (y, none)) js ys →
        decodeElems elem zero js [] = .ok (ys, none) := by
  intro js ys h
  induction h with
  | nil => rfl
  | cons hj _ ih =>
    simp only [decodeElems, List.headD_nil, List.tail_nil, hj, ih]
    rfl

theorem encodeElems_forall₂ {α : Type} (enc : α → Option JSON) :
    ∀ (xs : List α) (js : List JSON), encodeElems enc xs = some js →
      List.Forall₂ (fun j x => enc x = some j) js xs := by
  intro xs
  induction xs with
  | nil =>
    intro js h
    simp only [encodeElems, Option.some.injEq] at h
    subst h
    exact .nil
  | cons x xs ih =>
    intro js h
    simp only [encodeElems] at h
    cases hx : enc x with
    | none => simp [hx] at h
    | some j =>
      rw [hx] at h
      simp only at h
      cases hxs : encodeElems enc xs with
      | none => simp [hxs] at h
      | some js1 =>
        rw [hxs] at h
        simp only [Option.some.injEq] at h
        subst h
        exact .cons hx (ih js1 hxs)

end

section
variable {User Tm MessageComponent : Type}

theorem Slice.omitEmpty_of_len {α : Type} (s : Slice α) (h : (s.len == 0) = true) :
    s.omitEmpty = .nil := by
  cases s with
  | nil => rfl
  | mk xs =>
    cases xs with
    | nil => rfl
    | cons x xs => simp [Slice.len, Slice.toList] at h

theorem Slice.omitEmpty_of_len_ne {α : Type} (s : Slice α) (h : (s.len == 0) = false) :
    s.omitEmpty = .mk s.toList := by
  cases s with
  | nil => simp [Slice.len, Slice.toList] at h
  | mk xs =>
    cases xs with
    | nil => simp [Slice.len, Slice.toList] at h
    | cons x xs => rfl

theorem decodeSlice_fields (fields : Slice EmbedField) (h : (fields.len == 0) = false) :
    decodeSlice (decodeStruct EmbedField.fields) EmbedField.zero
      (.array (fields.toList.map EmbedField.encode)) .nil = .ok (fields.omitEmpty, none) := by
  have hel : decodeElems (decodeStruct EmbedField.fields) EmbedField.zero
      (fields.toList.map EmbedField.encode) [] = .ok (fields.toList, none) := by
    apply decodeElems_fresh
    generalize fields.toList = xs
    induction xs with
    | nil => exact .nil
    | cons x xs ih => exact .cons (embedField_decode_encode x) ih
  rw [Slice.omitEmpty_of_len_ne fields h]
  simp only [decodeSlice]
  rw [show (Slice.nil : Slice EmbedField).toList = [] from rfl, hel]

theorem embed_decode_encode (enc : Encoders User Tm)
    (timeUnmarshalJSON : Tm → JSON → Tm × Option DecodeError) (timeZero : Tm)
    (htime : ∀ t j, enc.timeMarshalJSON t = some j → timeUnmarshalJSON timeZero j = (t, none))
    (e : Embed Tm) (j : JSON) (hcolor : isInt e.Color) (henc : Embed.encode enc e = some j) :
    decodeStruct (Embed.fields timeUnmarshalJSON) j (Embed.zero timeZero) =
      .ok (e.omitEmpty, none) := by
  obtain ⟨title, type_, descr, url, time, color, footer, provider, author, fields⟩ := e
  simp only [Embed.encode] at henc
  cases ht : enc.timeMarshalJSON time with
  | none => simp [ht] at henc
  | some jt =>
    rw [ht] at henc
    simp only [Option.some.injEq] at henc
    subst henc
    simp only [decodeStruct, List.append_assoc, List.cons_append, List.nil_append,
      List.singleton_append]
    apply decodeMembers_omitempty (Embed.fields timeUnmarshalJSON) "title"
    case hfind => rfl
    case hst => exact fun _ => rfl
    case hc => intro h; simp at h; subst h; rfl
    apply decodeMembers_omitempty (Embed.fields timeUnmarshalJSON) "type"
    case hfind => rfl
    case hst => exact fun _ => rfl
    case hc => intro h; simp at h; subst h; rfl
    apply decodeMembers_omitempty (Embed.fields timeUnmarshalJSON) "description"
    case hfind => rfl
    case hst => exact fun _ => rfl
    case hc => intro h; simp at h; subst h; rfl
    apply decodeMembers_omitempty (Embed.fields timeUnmarshalJSON) "url"
    case hfind => rfl
    case hst => exact fun _ => rfl
    case hc => intro h; simp at h; subst h; rfl
    apply decodeMembers_present (Embed.fields timeUnmarshalJSON) "timestamp"
    case hfind => rfl
    case hst =>
      exact Field.of_store _ _ _ _ _ _ _ (decodeUnmarshaler_ok _ _ _ _ (htime _ _ ht))
    apply decodeMembers_omitempty (Embed.fields timeUnmarshalJSON) "color"
    case hfind => rfl
    case hst => exact fun _ => Field.of_store _ _ _ _ _ _ _ (decodeInt_ok _ _ hcolor)
    case hc => intro h; simp at h; subst h; rfl
    apply decodeMembers_present (Embed.fields timeUnmarshalJSON) "footer"
    case hfind => rfl
    case hst => exact Field.of_store _ _ _ _ _ _ _ (embedFooter_decode_encode footer)
    apply decodeMembers_present (Embed.fields timeUnmarshalJSON) "provider"
    case hfind => rfl
    case hst => exact Field.of_store _ _ _ _ _ _ _ (embedProvider_decode_encode provider)
    apply decodeMembers_present (Embed.fields timeUnmarshalJSON) "author"
    case hfind => rfl
    case hst => exact Field.of_store _ _ _ _ _ _ _ (embedAuthor_decode_encode author)
    rw [← List.append_nil (omitempty _ "fields" _)]
    apply decodeMembers_omitempty (Embed.fields timeUnmarshalJSON) "fields" _ _ _ _
      (Embed.mk title type_ descr url time color footer provider author fields.omitEmpty)
    case hfind => rfl
    case hst => exact fun h => Field.of_store _ _ _ _ _ _ _ (decodeSlice_fields fields h)
    case hc =>
      intro h
      rw [Slice.omitEmpty_of_len fields h]
      rfl
    rfl

end

section
variable {User Tm MessageComponent : Type}

theorem decodeWire_present (lib : Collaborators User Tm MessageComponent) (name : String)
    (f : WireField) (val : JSON) (rest : List (String × JSON))
    (v v1 : messageV User Tm MessageComponent)
    (r : Decoded (messageV User Tm MessageComponent))
    (hfind : resolve name = some f)
    (hst : storeField lib f (fun p => Message.unmarshalValue lib p val) val v = .ok (v1, none))
    (hrest : decodeWire lib rest v1 = r) :
    decodeWire lib ((name, val) :: rest) v = r := by
  rw [decodeWire]
  simp only [hfind, hst, hrest]
  cases r with
  | error e => rfl
  | ok r => rfl

theorem decodeWire_omitempty (lib : Collaborators User Tm MessageComponent) (name : String)
    (f : WireField) (val : JSON) (rest : List (String × JSON))
    (v v1 : messageV User Tm MessageComponent) (c : Bool)
    (r : Decoded (messageV User Tm MessageComponent))
    (hfind : resolve name = some f)
    (hst : c = false →
      storeField lib f (fun p => Message.unmarshalValue lib p val) val v = .ok (v1, none))
    (hc : c = true → v1 = v) (hrest : decodeWire lib rest v1 = r) :
    decodeWire lib (omitempty c name val ++ rest) v = r := by
  cases c with
  | true =>
    rw [← hc rfl]
    exact hrest
  | false => exact decodeWire_present lib name f val rest v v1 r hfind (hst rfl) hrest

theorem onMessage_store {β : Type} (v : messageV User Tm MessageComponent)
    (get : Message User Tm MessageComponent → β)
    (set : Message User Tm MessageComponent → β → Message User Tm MessageComponent)
    (dec : Decoder β) (val : JSON) (b : β) (h : dec val (get v.message) = .ok (b, none)) :
    onMessage v get set dec val = .ok ({ v with message := set v.message b }, none) := by
  simp [onMessage, h]

theorem forall₂_decode_of_encode {α : Type} (enc : α → Option JSON) (elem : Decoder α)
    (zero : α) (norm : α → α) (js : List JSON) (xs : List α)
    (h : List.Forall₂ (fun j x => enc x = some j) js xs)
    (hx : ∀ x ∈ xs, ∀ j, enc x = some j → elem j zero = .ok (norm x, none)) :
    List.Forall₂ (fun j y => elem j zero = .ok (y, none)) js (xs.map norm) := by
  induction h with
  | nil => exact .nil
  | cons hj _ ih =>
    exact .cons (hx _ (List.mem_cons_self _ _) _ hj)
      (ih (fun x hmem => hx x (List.mem_cons_of_mem _ hmem)))

theorem decodeSlice_mentions (lib : Collaborators User Tm MessageComponent)
    (enc : Encoders User Tm)
    (huser : ∀ u j, enc.encodeUser u = some j → lib.decodeUser j lib.userZero = .ok (u, none))
    (mentions : Slice User) (j : JSON) (h : encodeSlice enc.encodeUser mentions = some j) :
    decodeSlice lib.decodeUser lib.userZero j .nil = .ok (mentions, none) := by
  cases mentions with
  | nil =>
    simp only [encodeSlice, Option.some.injEq] at h
    subst h
    rfl
  | mk xs =>
    simp only [encodeSlice] at h
    cases hxs : encodeElems enc.encodeUser xs with
    | none => simp [hxs] at h
    | some js =>
      rw [hxs] at h
      simp only [Option.some.injEq] at h
      subst h
      have := decodeElems_fresh lib.decodeUser lib.userZero js (xs.map id)
        (forall₂_decode_of_encode enc.encodeUser lib.decodeUser lib.userZero id js xs
          (encodeElems_forall₂ _ xs js hxs) (fun x _ j hj => huser x j hj))
      simp only [List.map_id] at this
      simp only [decodeSlice]
      rw [show (Slice.nil : Slice User).toList = [] from rfl, this]

theorem decodeSlice_embeds (lib : Collaborators User Tm MessageComponent)
    (enc : Encoders User Tm)
    (htime : ∀ t j, enc.timeMarshalJSON t = some j →
      lib.timeUnmarshalJSON lib.timeZero j = (t, none))
    (embeds : Slice (Embed Tm)) (js : List JSON)
    (hcolor : ∀ e ∈ embeds.toList, isInt e.Color)
    (h : encodeElems (Embed.encode enc) embeds.toList = some js)
    (hlen : (embeds.len == 0) = false) :
    decodeSlice (decodeStruct (Embed.fields lib.timeUnmarshalJSON)) (Embed.zero lib.timeZero)
      (.array js) .nil = .ok ((embeds.map Embed.omitEmpty).omitEmpty, none) := by
  have hel := decodeElems_fresh (decodeStruct (Embed.fields lib.timeUnmarshalJSON))
    (Embed.zero lib.timeZero) js (embeds.toList.map Embed.omitEmpty)
    (forall₂_decode_of_encode (Embed.encode enc) _ _ Embed.omitEmpty js embeds.toList
      (encodeElems_forall₂ _ _ js h)
      (fun e he j hj => embed_decode_encode enc lib.timeUnmarshalJSON lib.timeZero htime e j
        (hcolor e he) hj))
  have hnorm : (embeds.map Embed.omitEmpty).omitEmpty =
      .mk (embeds.toList.map Embed.omitEmpty) := by
    cases embeds with
    | nil => simp [Slice.len, Slice.toList] at hlen
    | mk xs =>
      cases xs with
      | nil => simp [Slice.len, Slice.toList] at hlen
      | cons x xs => rfl
  simp only [decodeSlice]
  rw [show (Slice.nil : Slice (Embed Tm)).toList = [] from rfl, hel, hnorm]

theorem Message.encode_none (enc : Encoders User Tm) (m : Message User Tm MessageComponent)
    (h : m.ReferencedMessage = none) : Message.encode enc m = Message.encodeFields enc m [] := by
  obtain ⟨id, channelID, guildID, author, content, time, editedTime, tts, mentionEveryone,
    mentions, type, pinned, embeds, webhookID, components, referenced⟩ := m
  simp only at h
  subst h
  simp only [Message.encode]

theorem Message.encode_some (enc : Encoders User Tm) (m r : Message User Tm MessageComponent)
    (h : m.ReferencedMessage = some r) :
    Message.encode enc m =
      match Message.encode enc r with
      | none => none
      | some j => Message.encodeFields enc m [("referenced_message", j)] := by
  obtain ⟨id, channelID, guildID, author, content, time, editedTime, tts, mentionEveryone,
    mentions, type, pinned, embeds, webhookID, components, referenced⟩ := m
  simp only at h
  subst h
  simp only [Message.encode]

theorem Message.encodeFields_object (enc : Encoders User Tm)
    (m : Message User Tm MessageComponent) (jr : List (String × JSON)) (j : JSON)
    (h : Message.encodeFields enc m jr = some j) : ∃ ms, j = .object ms := by
  unfold Message.encodeFields at h
  split at h
  · simp only [Option.some.injEq] at h
    exact ⟨_, h.symm⟩
  · simp at h

theorem Message.encode_object (enc : Encoders User Tm) (m : Message User Tm MessageComponent)
    (j : JSON) (h : Message.encode enc m = some j) : ∃ ms, j = .object ms := by
  cases hr : m.ReferencedMessage with
  | none =>
    rw [Message.encode_none enc m hr] at h
    exact Message.encodeFields_object enc m _ j h
  | some r =>
    rw [Message.encode_some enc m r hr] at h
    split at h
    · simp at h
    · exact Message.encodeFields_object enc m _ j h

end

section
variable {User Tm MessageComponent : Type}

theorem Slice.map_omitEmpty_of_len {α β : Type} (f : α → β) (s : Slice α)
    (h : (s.len == 0) = true) : (s.map f).omitEmpty = .nil := by
  cases s with
  | nil => rfl
  | mk xs =>
    cases xs with
    | nil => rfl
    | cons x xs => simp [Slice.len, Slice.toList] at h

theorem storeField_author (lib : Collaborators User Tm MessageComponent)
    (nested : Message User Tm MessageComponent →
      Message User Tm MessageComponent × Option DecodeError)
    (val : JSON) (v : messageV User Tm MessageComponent) (b : User)
    (h : lib.decodeUser val v.message.Author = .ok (b, none)) :
    storeField lib .Author nested val v =
      .ok ({ v with message := { v.message with Author := b } }, none) := by
  simp [storeField, onMessage, h]

theorem storeField_time (lib : Collaborators User Tm MessageComponent)
    (nested : Message User Tm MessageComponent →
      Message User Tm MessageComponent × Option DecodeError)
    (val : JSON) (v : messageV User Tm MessageComponent) (b : Tm)
    (h : lib.timeUnmarshalJSON v.message.Time val = (b, none)) :
    storeField lib .Time nested val v =
      .ok ({ v with message := { v.message with Time := b } }, none) := by
  simp [storeField, onMessage, decodeUnmarshaler, h]

theorem storeField_editedTime (lib : Collaborators User Tm MessageComponent)
    (nested : Message User Tm MessageComponent →
      Message User Tm MessageComponent × Option DecodeError)
    (val : JSON) (v : messageV User Tm MessageComponent) (b : Tm)
    (h : lib.timeUnmarshalJSON v.message.EditedTime val = (b, none)) :
    storeField lib .EditedTime nested val v =
      .ok ({ v with message := { v.message with EditedTime := b } }, none) := by
  simp [storeField, onMessage, decodeUnmarshaler, h]

theorem storeField_mentions (lib : Collaborators User Tm MessageComponent)
    (nested : Message User Tm MessageComponent →
      Message User Tm MessageComponent × Option DecodeError)
    (val : JSON) (v : messageV User Tm MessageComponent) (b : Slice User)
    (h : decodeSlice lib.decodeUser lib.userZero val v.message.Mentions = .ok (b, none)) :
    storeField lib .Mentions nested val v =
      .ok ({ v with message := { v.message with Mentions := b } }, none) := by
  simp [storeField, onMessage, h]

theorem storeField_type (lib : Collaborators User Tm MessageComponent)
    (nested : Message User Tm MessageComponent →
      Message User Tm MessageComponent × Option DecodeError)
    (i : Int) (v : messageV User Tm MessageComponent) (h : isInt i) :
    storeField lib .Type_ nested (.int i) v =
      .ok ({ v with message := { v.message with Type_ := i } }, none) := by
  simp [storeField, onMessage, decodeInt_ok _ _ h]

theorem storeField_embeds (lib : Collaborators User Tm MessageComponent)
    (nested : Message User Tm MessageComponent →
      Message User Tm MessageComponent × Option DecodeError)
    (val : JSON) (v : messageV User Tm MessageComponent) (b : Slice (Embed Tm))
    (h : decodeSlice (decodeStruct (Embed.fields lib.timeUnmarshalJSON))
      (Embed.zero lib.timeZero) val v.message.Embeds = .ok (b, none)) :
    storeField lib .Embeds nested val v =
      .ok ({ v with message := { v.message with Embeds := b } }, none) := by
  simp [storeField, onMessage, h]

theorem storeField_referenced (lib : Collaborators User Tm MessageComponent)
    (nested : Message User Tm MessageComponent →
      Message User Tm MessageComponent × Option DecodeError)
    (members : List (String × JSON)) (v : messageV User Tm MessageComponent)
    (b : Message User Tm MessageComponent)
    (h : nested (v.message.ReferencedMessage.getD (Message.zero lib)) = (b, none)) :
    storeField lib .ReferencedMessage nested (.object members) v =
      .ok ({ v with message := { v.message with ReferencedMessage := some b } }, none) := by
  simp [storeField, onMessage, decodeReferenced, h]

/-- Decoding the object written for a `Message`: the flat members fill the flat fields
of `v`, then the member written for `ReferencedMessage` is decoded. -/
theorem unmarshalV_encodeFields (lib : Collaborators User Tm MessageComponent)
    (enc : Encoders User Tm)
    (huser : ∀ u j, enc.encodeUser u = some j → lib.decodeUser j lib.userZero = .ok (u, none))
    (htime : ∀ t j, enc.timeMarshalJSON t = some j →
      lib.timeUnmarshalJSON lib.timeZero j = (t, none))
    (m : Message User Tm MessageComponent) (htype : isInt m.Type_)
    (hcolor : ∀ e ∈ m.Embeds.toList, isInt e.Color)
    (jr : List (String × JSON)) (j : JSON)
    (henc : Message.encodeFields enc m jr = some j)
    (r : Decoded (messageV User Tm MessageComponent))
    (hrest : decodeWire lib jr
      { message := { m with
          Embeds := (m.Embeds.map Embed.omitEmpty).omitEmpty
          Components := .nil
          ReferencedMessage := none }
        RawComponents := .nil } = r) :
    unmarshalV lib j = r := by
  obtain ⟨id, channelID, guildID, author, content, time, editedTime, tts, mentionEveryone,
    mentions, type, pinned, embeds, webhookID, components, referenced⟩ := m
  simp only at htype hcolor hrest
  unfold Message.encodeFields at henc
  split at henc
  · rename_i jA jT jE jM jEm hA hT hE hM hEm
    dsimp only at hA hT hE hM hEm henc
    simp only [Option.some.injEq] at henc
    subst henc
    simp only [unmarshalV, List.append_assoc, List.cons_append, List.nil_append,
      List.singleton_append]
    apply decodeWire_omitempty lib "id"
    case hfind => rfl
    case hst => exact fun _ => rfl
    case hc => intro h; simp at h; subst h; rfl
    dsimp only
    apply decodeWire_omitempty lib "channel_id"
    case hfind => rfl
    case hst => exact fun _ => rfl
    case hc => intro h; simp at h; subst h; rfl
    dsimp only
    apply decodeWire_omitempty lib "guild_id"
    case hfind => rfl
    case hst => exact fun _ => rfl
    case hc => intro h; simp at h; subst h; rfl
    dsimp only
    apply decodeWire_present lib "author"
    case hfind => rfl
    case hst =>
      apply storeField_author lib
      exact huser _ _ hA
    dsimp only
    apply decodeWire_omitempty lib "content"
    case hfind => rfl
    case hst => exact fun _ => rfl
    case hc => intro h; simp at h; subst h; rfl
    dsimp only
    apply decodeWire_present lib "timestamp"
    case hfind => rfl
    case hst =>
      apply storeField_time lib
      exact htime _ _ hT
    dsimp only
    apply decodeWire_present lib "edited_timestamp"
    case hfind => rfl
    case hst =>
      apply storeField_editedTime lib
      exact htime _ _ hE
    dsimp only
    apply decodeWire_omitempty lib "tts"
    case hfind => rfl
    case hst => exact fun _ => rfl
    case hc => intro h; simp at h; subst h; rfl
    dsimp only
    apply decodeWire_omitempty lib "mention_everyone"
    case hfind => rfl
    case hst => exact fun _ => rfl
    case hc => intro h; simp at h; subst h; rfl
    dsimp only
    apply decodeWire_present lib "mentions"
    case hfind => rfl
    case hst =>
      apply storeField_mentions lib
      exact decodeSlice_mentions lib enc huser mentions jM hM
    dsimp only
    apply decodeWire_omitempty lib "type"
    case hfind => rfl
    case hst => exact fun _ => storeField_type lib _ _ _ htype
    case hc => intro h; simp at h; subst h; rfl
    dsimp only
    apply decodeWire_omitempty lib "pinned"
    case hfind => rfl
    case hst => exact fun _ => rfl
    case hc => intro h; simp at h; subst h; rfl
    dsimp only
    apply decodeWire_omitempty lib "embeds"
    case hfind => rfl
    case hst =>
      intro h
      apply storeField_embeds lib
      exact decodeSlice_embeds lib enc htime embeds jEm hcolor hEm h
    case hc =>
      intro h
      simp only [Slice.map_omitEmpty_of_len Embed.omitEmpty embeds h]
      rfl
    dsimp only
    apply decodeWire_omitempty lib "webhook_id"
    case hfind => rfl
    case hst => exact fun _ => rfl
    case hc => intro h; simp at h; subst h; rfl
    dsimp only
    exact hrest
  · simp at henc

end

section
variable {User Tm MessageComponent : Type}

theorem Message.omitEmpty_eq (m : Message User Tm MessageComponent) :
    m.omitEmpty = { m with
      Embeds := (m.Embeds.map Embed.omitEmpty).omitEmpty
      Components := .mk []
      ReferencedMessage := m.ReferencedMessage.map Message.omitEmpty } := by
  obtain ⟨id, channelID, guildID, author, content, time, editedTime, tts, mentionEveryone,
    mentions, type, pinned, embeds, webhookID, components, referenced⟩ := m
  cases referenced <;> rfl

theorem Message.Forall_iff (pu : User → Prop) (pt : Tm → Prop)
    (m : Message User Tm MessageComponent) :
    m.Forall pu pt ↔ pu m.Author ∧ pt m.Time ∧ pt m.EditedTime ∧
      (∀ u ∈ m.Mentions.toList, pu u) ∧ isInt m.Type_ ∧
      (∀ e ∈ m.Embeds.toList, pt e.Time ∧ isInt e.Color) ∧
      ∀ r, m.ReferencedMessage = some r → r.Forall pu pt := by
  obtain ⟨id, channelID, guildID, author, content, time, editedTime, tts, mentionEveryone,
    mentions, type, pinned, embeds, webhookID, components, referenced⟩ := m
  cases referenced with
  | none => simp [Message.Forall]
  | some r => simp [Message.Forall]

theorem Message.chainLength_some (m r : Message User Tm MessageComponent)
    (h : m.ReferencedMessage = some r) : m.chainLength = r.chainLength + 1 := by
  obtain ⟨id, channelID, guildID, author, content, time, editedTime, tts, mentionEveryone,
    mentions, type, pinned, embeds, webhookID, components, referenced⟩ := m
  simp only at h
  subst h
  simp [Message.chainLength]

theorem unmarshalValue_encode (lib : Collaborators User Tm MessageComponent)
    (enc : Encoders User Tm)
    (huser : ∀ u j, enc.encodeUser u = some j → lib.decodeUser j lib.userZero = .ok (u, none))
    (htime : ∀ t j, enc.timeMarshalJSON t = some j →
      lib.timeUnmarshalJSON lib.timeZero j = (t, none)) :
    ∀ (n : Nat) (m : Message User Tm MessageComponent), m.chainLength ≤ n →
      m.Forall (fun _ => True) (fun _ => True) →
      ∀ j, Message.encode enc m = some j →
        ∀ m0, Message.unmarshalValue lib m0 j = (m.omitEmpty, none) := by
  intro n
  induction n with
  | zero =>
    intro m hlen hints j henc m0
    obtain ⟨-, -, -, -, htype, hcolor0, -⟩ := (Message.Forall_iff _ _ m).1 hints
    have hcolor : ∀ e ∈ m.Embeds.toList, isInt e.Color := fun e he => (hcolor0 e he).2
    cases hr : m.ReferencedMessage with
    | some r =>
      rw [Message.chainLength_some m r hr] at hlen
      omega
    | none =>
      rw [Message.encode_none enc m hr] at henc
      rw [unmarshalValue_eq,
        unmarshalV_encodeFields lib enc huser htime m htype hcolor [] j henc _ rfl,
        Message.omitEmpty_eq m, hr]
      rfl
  | succ n ih =>
    intro m hlen hints j henc m0
    obtain ⟨-, -, -, -, htype, hcolor0, href⟩ := (Message.Forall_iff _ _ m).1 hints
    have hcolor : ∀ e ∈ m.Embeds.toList, isInt e.Color := fun e he => (hcolor0 e he).2
    cases hr : m.ReferencedMessage with
    | none =>
      rw [Message.encode_none enc m hr] at henc
      rw [unmarshalValue_eq,
        unmarshalV_encodeFields lib enc huser htime m htype hcolor [] j henc _ rfl,
        Message.omitEmpty_eq m, hr]
      rfl
    | some r =>
      rw [Message.chainLength_some m r hr] at hlen
      rw [Message.encode_some enc m r hr] at henc
      cases hjr : Message.encode enc r with
      | none => simp [hjr] at henc
      | some jr =>
        rw [hjr] at henc
        simp only at henc
        obtain ⟨ms, hms⟩ := Message.encode_object enc r jr hjr
        subst hms
        have hnested := ih r (by omega) (href r hr) _ hjr
        rw [unmarshalValue_eq,
          unmarshalV_encodeFields lib enc huser htime m htype hcolor _ j henc _
            (decodeWire_present lib "referenced_message" .ReferencedMessage _ [] _ _ _ rfl
              (storeField_referenced lib _ ms _ r.omitEmpty (hnested _)) rfl)]
        simp only [decodeWire]
        rw [assemble_ok, Message.omitEmpty_eq m, hr]
        rfl

end

section
variable {User Tm MessageComponent : Type}

theorem lookupField_mem {β : Type} (name : β → String) (fields : List β) (key : String)
    (f : β) (h : lookupField name fields key = some f) : f ∈ fields := by
  unfold lookupField at h
  split at h
  · rename_i g hg
    simp only [Option.some.injEq] at h
    subst h
    exact List.mem_of_find?_eq_some hg
  · exact List.mem_of_find?_eq_some h

theorem decodeMembers_invariant {α : Type} (P : α → Prop) (fs : List (Field α))
    (hfs : ∀ f ∈ fs, ∀ val a a1 s, P a → f.store val a = .ok (a1, s) → P a1) :
    ∀ (ms : List (String × JSON)) (a a1 : α) (s : Option DecodeError), P a →
      decodeMembers fs ms a = .ok (a1, s) → P a1 := by
  intro ms
  induction ms with
  | nil =>
    intro a a1 s ha h
    simp only [decodeMembers, Except.ok.injEq, Prod.mk.injEq] at h
    rw [← h.1]
    exact ha
  | cons kv rest ih =>
    obtain ⟨key, val⟩ := kv
    intro a a1 s ha h
    simp only [decodeMembers] at h
    cases hk : findField fs key with
    | none =>
      rw [hk] at h
      exact ih a a1 s ha h
    | some f =>
      rw [hk] at h
      simp only at h
      cases hs : f.store val a with
      | error e => simp [hs] at h
      | ok r =>
        obtain ⟨a2, s1⟩ := r
        rw [hs] at h
        simp only at h
        cases hr : decodeMembers fs rest a2 with
        | error e => simp [hr] at h
        | ok r2 =>
          obtain ⟨a3, s2⟩ := r2
          rw [hr] at h
          simp only [Except.ok.injEq, Prod.mk.injEq] at h
          rw [← h.1]
          exact ih a2 a3 s2 (hfs f (lookupField_mem _ _ _ _ hk) val a a2 s1 ha hs) hr

theorem decodeStruct_invariant {α : Type} (P : α → Prop) (fs : List (Field α))
    (hfs : ∀ f ∈ fs, ∀ val a a1 s, P a → f.store val a = .ok (a1, s) → P a1)
    (j : JSON) (a a1 : α) (s : Option DecodeError) (ha : P a)
    (h : decodeStruct fs j a = .ok (a1, s)) : P a1 := by
  cases j with
  | object ms => exact decodeMembers_invariant P fs hfs ms a a1 s ha h
  | null | bool _ | int _ | float _ | string _ | array _ =>
    simp only [decodeStruct, Except.ok.injEq, Prod.mk.injEq] at h
    rw [← h.1]
    exact ha

theorem decodeInt_isInt (j : JSON) (old i : Int) (s : Option DecodeError) (hold : isInt old)
    (h : decodeInt j old = .ok (i, s)) : isInt i := by
  cases j with
  | int k =>
    simp only [decodeInt] at h
    split at h
    · rename_i hk
      simp only [Except.ok.injEq, Prod.mk.injEq] at h
      rw [← h.1]
      exact hk
    · simp only [Except.ok.injEq, Prod.mk.injEq] at h
      rw [← h.1]
      exact hold
  | null | bool _ | float _ | string _ | array _ | object _ =>
    simp only [decodeInt, Except.ok.injEq, Prod.mk.injEq] at h
    rw [← h.1]
    exact hold

theorem Field.of_store_ok {α β : Type} (name : String) (get : α → β) (set : α → β → α)
    (dec : Decoder β) (val : JSON) (a a1 : α) (s : Option DecodeError)
    (h : (Field.of name get set dec).store val a = .ok (a1, s)) :
    ∃ b, dec val (get a) = .ok (b, s) ∧ a1 = set a b := by
  simp only [Field.of] at h
  split at h
  · simp at h
  · rename_i b s0 hb
    simp only [Except.ok.injEq, Prod.mk.injEq] at h
    exact ⟨b, by rw [hb, h.2], h.1.symm⟩

theorem decodeUnmarshaler_inv {α : Type} (unmarshalJSON : α → JSON → α × Option DecodeError)
    (val : JSON) (a b : α) (s : Option DecodeError)
    (h : decodeUnmarshaler unmarshalJSON val a = .ok (b, s)) :
    unmarshalJSON a val = (b, none) := by
  unfold decodeUnmarshaler at h
  split at h
  · rename_i a1 hu
    simp only [Except.ok.injEq, Prod.mk.injEq] at h
    rw [hu, h.1]
  · simp at h

theorem embed_fields_invariant (pt : Tm → Prop)
    (timeUnmarshalJSON : Tm → JSON → Tm × Option DecodeError)
    (hkeep : ∀ j t t1, pt t → timeUnmarshalJSON t j = (t1, none) → pt t1) :
    ∀ f ∈ Embed.fields timeUnmarshalJSON, ∀ (val : JSON) (a a1 : Embed Tm)
      (s : Option DecodeError), (pt a.Time ∧ isInt a.Color) → f.store val a = .ok (a1, s) →
        (pt a1.Time ∧ isInt a1.Color) := by
  intro f hf val a a1 s ha h
  simp only [Embed.fields, List.mem_cons, List.mem_singleton, List.not_mem_nil, or_false] at hf
  rcases hf with rfl | rfl | rfl | rfl | rfl | rfl | rfl | rfl | rfl | rfl
  · obtain ⟨b, -, rfl⟩ := Field.of_store_ok _ _ _ _ _ _ _ _ h
    exact ha
  · obtain ⟨b, -, rfl⟩ := Field.of_store_ok _ _ _ _ _ _ _ _ h
    exact ha
  · obtain ⟨b, -, rfl⟩ := Field.of_store_ok _ _ _ _ _ _ _ _ h
    exact ha
  · obtain ⟨b, -, rfl⟩ := Field.of_store_ok _ _ _ _ _ _ _ _ h
    exact ha
  · obtain ⟨b, hb, rfl⟩ := Field.of_store_ok _ _ _ _ _ _ _ _ h
    exact ⟨hkeep _ _ _ ha.1 (decodeUnmarshaler_inv _ _ _ _ _ hb), ha.2⟩
  · obtain ⟨b, hb, rfl⟩ := Field.of_store_ok _ _ _ _ _ _ _ _ h
    exact ⟨ha.1, decodeInt_isInt _ _ _ _ ha.2 hb⟩
  · obtain ⟨b, -, rfl⟩ := Field.of_store_ok _ _ _ _ _ _ _ _ h
    exact ha
  · obtain ⟨b, -, rfl⟩ := Field.of_store_ok _ _ _ _ _ _ _ _ h
    exact ha
  · obtain ⟨b, -, rfl⟩ := Field.of_store_ok _ _ _ _ _ _ _ _ h
    exact ha
  · obtain ⟨b, -, rfl⟩ := Field.of_store_ok _ _ _ _ _ _ _ _ h
    exact ha

theorem decodeElems_forall {α : Type} (P : α → Prop) (elem : Decoder α) (zero : α)
    (hz : P zero) (helem : ∀ j a a1 s, P a → elem j a = .ok (a1, s) → P a1) :
    ∀ (js : List JSON) (old new : List α) (s : Option DecodeError), (∀ x ∈ old, P x) →
      decodeElems elem zero js old = .ok (new, s) → ∀ x ∈ new, P x := by
  intro js
  induction js with
  | nil =>
    intro old new s _ h
    simp only [decodeElems, Except.ok.injEq, Prod.mk.injEq] at h
    rw [← h.1]
    simp
  | cons j js ih =>
    intro old new s hold h
    rw [decodeElems] at h
    have hhead : P (old.headD zero) := by
      cases old with
      | nil => exact hz
      | cons x xs => exact hold x (List.mem_cons_self _ _)
    have htail : ∀ x ∈ old.tail, P x := fun x hx => hold x (List.mem_of_mem_tail hx)
    cases he : elem j (old.headD zero) with
    | error e =>
      rw [he] at h
      simp at h
    | ok r =>
      obtain ⟨y, s1⟩ := r
      rw [he] at h
      simp only at h
      cases hr : decodeElems elem zero js old.tail with
      | error e => simp [hr] at h
      | ok r2 =>
        obtain ⟨ys, s2⟩ := r2
        rw [hr] at h
        simp only [Except.ok.injEq, Prod.mk.injEq] at h
        rw [← h.1]
        intro x hx
        rcases List.mem_cons.1 hx with rfl | hx
        · exact helem j _ _ s1 hhead he
        · exact ih old.tail ys s2 htail hr x hx

theorem decodeSlice_forall {α : Type} (P : α → Prop) (elem : Decoder α) (zero : α)
    (hz : P zero) (helem : ∀ j a a1 s, P a → elem j a = .ok (a1, s) → P a1)
    (j : JSON) (old new : Slice α) (s : Option DecodeError) (hold : ∀ x ∈ old.toList, P x)
    (h : decodeSlice elem zero j old = .ok (new, s)) : ∀ x ∈ new.toList, P x := by
  cases j with
  | array js =>
    simp only [decodeSlice] at h
    cases hr : decodeElems elem zero js old.toList with
    | error e => simp [hr] at h
    | ok r =>
      obtain ⟨ys, s1⟩ := r
      rw [hr] at h
      simp only [Except.ok.injEq, Prod.mk.injEq] at h
      rw [← h.1]
      exact decodeElems_forall P elem zero hz helem js _ ys s1 hold hr
  | null =>
    simp only [decodeSlice, Except.ok.injEq, Prod.mk.injEq] at h
    rw [← h.1]
    simp [Slice.toList]
  | bool _ | int _ | float _ | string _ | object _ =>
    simp only [decodeSlice, Except.ok.injEq, Prod.mk.injEq] at h
    rw [← h.1]
    exact hold

end

section
variable {User Tm MessageComponent : Type}

theorem isInt_zero : isInt 0 := by
  unfold isInt intSize
  decide

theorem Message.zero_forall (lib : Collaborators User Tm MessageComponent)
    (pu : User → Prop) (pt : Tm → Prop) (hzU : pu lib.userZero) (hzT : pt lib.timeZero) :
    (Message.zero lib).Forall pu pt := by
  simp [Message.Forall, Message.zero, hzU, hzT, isInt_zero, Slice.toList]

theorem storeField_forall (lib : Collaborators User Tm MessageComponent)
    (pu : User → Prop) (pt : Tm → Prop) (hzU : pu lib.userZero) (hzT : pt lib.timeZero)
    (hkeepU : ∀ j u u1 s, pu u → lib.decodeUser j u = .ok (u1, s) → pu u1)
    (hkeepT : ∀ j t t1, pt t → lib.timeUnmarshalJSON t j = (t1, none) → pt t1)
    (f : WireField)
    (nested : Message User Tm MessageComponent →
      Message User Tm MessageComponent × Option DecodeError)
    (hn : ∀ p r, nested p = (r, none) → r.Forall pu pt)
    (val : JSON) (v v1 : messageV User Tm MessageComponent) (s : Option DecodeError)
    (hv : v.message.Forall pu pt) (h : storeField lib f nested val v = .ok (v1, s)) :
    v1.message.Forall pu pt := by
  have hv0 := (Message.Forall_iff pu pt v.message).1 hv
  obtain ⟨h1, h2, h3, h4, h5, h6, h7⟩ := hv0
  cases f with
  | ID | ChannelID | GuildID | Content | TTS | MentionEveryone | Pinned | WebhookID =>
    simp only [storeField] at h
    obtain ⟨b, -, rfl⟩ := onMessage_ok _ _ _ _ _ _ _ h
    exact (Message.Forall_iff _ _ _).2 ⟨h1, h2, h3, h4, h5, h6, h7⟩
  | Author =>
    simp only [storeField] at h
    obtain ⟨b, hb, rfl⟩ := onMessage_ok _ _ _ _ _ _ _ h
    exact (Message.Forall_iff _ _ _).2 ⟨hkeepU _ _ _ _ h1 hb, h2, h3, h4, h5, h6, h7⟩
  | Time =>
    simp only [storeField] at h
    obtain ⟨b, hb, rfl⟩ := onMessage_ok _ _ _ _ _ _ _ h
    exact (Message.Forall_iff _ _ _).2
      ⟨h1, hkeepT _ _ _ h2 (decodeUnmarshaler_inv _ _ _ _ _ hb), h3, h4, h5, h6, h7⟩
  | EditedTime =>
    simp only [storeField] at h
    obtain ⟨b, hb, rfl⟩ := onMessage_ok _ _ _ _ _ _ _ h
    exact (Message.Forall_iff _ _ _).2
      ⟨h1, h2, hkeepT _ _ _ h3 (decodeUnmarshaler_inv _ _ _ _ _ hb), h4, h5, h6, h7⟩
  | Mentions =>
    simp only [storeField] at h
    obtain ⟨b, hb, rfl⟩ := onMessage_ok _ _ _ _ _ _ _ h
    exact (Message.Forall_iff _ _ _).2
      ⟨h1, h2, h3, decodeSlice_forall pu _ _ hzU hkeepU _ _ _ _ h4 hb, h5, h6, h7⟩
  | Type_ =>
    simp only [storeField] at h
    obtain ⟨b, hb, rfl⟩ := onMessage_ok _ _ _ _ _ _ _ h
    exact (Message.Forall_iff _ _ _).2 ⟨h1, h2, h3, h4, decodeInt_isInt _ _ _ _ h5 hb, h6, h7⟩
  | Embeds =>
    simp only [storeField] at h
    obtain ⟨b, hb, rfl⟩ := onMessage_ok _ _ _ _ _ _ _ h
    refine (Message.Forall_iff _ _ _).2 ⟨h1, h2, h3, h4, h5, ?_, h7⟩
    exact decodeSlice_forall (fun e : Embed Tm => pt e.Time ∧ isInt e.Color) _ _
      ⟨hzT, isInt_zero⟩
      (fun j a a1 s ha hd => decodeStruct_invariant _ _
        (embed_fields_invariant pt lib.timeUnmarshalJSON hkeepT) j a a1 s ha hd)
      _ _ _ _ h6 hb
  | ReferencedMessage =>
    simp only [storeField] at h
    obtain ⟨b, hb, rfl⟩ := onMessage_ok _ _ _ _ _ _ _ h
    refine (Message.Forall_iff _ _ _).2 ⟨h1, h2, h3, h4, h5, h6, ?_⟩
    intro r hr
    simp only at hr
    by_cases hnull : val = .null
    · subst hnull
      simp only [decodeReferenced, Except.ok.injEq, Prod.mk.injEq] at hb
      rw [← hb.1] at hr
      cases hr
    · obtain ⟨r1, hr1, hcall⟩ := decodeReferenced_ok lib nested val _ _ _ hnull hb
      rw [hr1] at hr
      cases hr
      exact hn _ _ hcall
  | RawComponents =>
    simp only [storeField] at h
    split at h
    · simp at h
    · simp only [Except.ok.injEq, Prod.mk.injEq] at h
      rw [← h.1]
      exact hv

theorem decodeWireBounded_forall (lib : Collaborators User Tm MessageComponent)
    (pu : User → Prop) (pt : Tm → Prop) (hzU : pu lib.userZero) (hzT : pt lib.timeZero)
    (hkeepU : ∀ j u u1 s, pu u → lib.decodeUser j u = .ok (u1, s) → pu u1)
    (hkeepT : ∀ j t t1, pt t → lib.timeUnmarshalJSON t j = (t1, none) → pt t1)
    (self : Message User Tm MessageComponent → JSON →
      Option (Message User Tm MessageComponent × Option DecodeError))
    (hself : ∀ p doc r, self p doc = some (r, none) → r.Forall pu pt) :
    ∀ (ms : List (String × JSON)) (v v1 : messageV User Tm MessageComponent)
      (s : Option DecodeError), v.message.Forall pu pt →
      decodeWireBounded lib self ms v = some (.ok (v1, s)) → v1.message.Forall pu pt := by
  intro ms
  induction ms with
  | nil =>
    intro v v1 s hv h
    simp only [decodeWireBounded, Option.some.injEq, Except.ok.injEq, Prod.mk.injEq] at h
    rw [← h.1]
    exact hv
  | cons kv rest ih =>
    obtain ⟨key, val⟩ := kv
    intro v v1 s hv h
    simp only [decodeWireBounded] at h
    cases hk : resolve key with
    | none =>
      rw [hk] at h
      exact ih v v1 s hv h
    | some f =>
      rw [hk] at h
      simp only at h
      cases hcall : nestedCall lib self f val v with
      | none => simp [hcall] at h
      | some returned =>
        rw [hcall] at h
        simp only at h
        have hret : ∀ r, returned = (r, none) → r.Forall pu pt := by
          intro r hr
          subst hr
          unfold nestedCall at hcall
          split at hcall
          · split at hcall
            · simp only [Option.some.injEq, Prod.mk.injEq] at hcall
              rw [← hcall.1]
              exact Message.zero_forall lib pu pt hzU hzT
            · exact hself _ _ _ hcall
          · simp only [Option.some.injEq, Prod.mk.injEq] at hcall
            rw [← hcall.1]
            exact Message.zero_forall lib pu pt hzU hzT
        cases hs : storeField lib f (fun _ => returned) val v with
        | error e => simp [hs] at h
        | ok r =>
          obtain ⟨v2, s1⟩ := r
          rw [hs] at h
          simp only at h
          have hv2 := storeField_forall lib pu pt hzU hzT hkeepU hkeepT f (fun _ => returned)
            (fun _ r hr => hret r hr) val v v2 s1 hv hs
          cases hr : decodeWireBounded lib self rest v2 with
          | none => simp [hr] at h
          | some res =>
            rw [hr] at h
            cases res with
            | error e => simp at h
            | ok r2 =>
              obtain ⟨v3, s2⟩ := r2
              simp only [Option.some.injEq, Except.ok.injEq, Prod.mk.injEq] at h
              rw [← h.1]
              exact ih v2 v3 s2 hv2 hr

theorem Message.forall_components (pu : User → Prop) (pt : Tm → Prop)
    (m : Message User Tm MessageComponent) (cs : Slice MessageComponent)
    (h : m.Forall pu pt) : ({ m with Components := cs } : Message User Tm MessageComponent).Forall
      pu pt :=
  (Message.Forall_iff _ _ _).2 ((Message.Forall_iff pu pt m).1 h)

theorem unmarshalBounded_forall (lib : Collaborators User Tm MessageComponent)
    (pu : User → Prop) (pt : Tm → Prop) (hzU : pu lib.userZero) (hzT : pt lib.timeZero)
    (hkeepU : ∀ j u u1 s, pu u → lib.decodeUser j u = .ok (u1, s) → pu u1)
    (hkeepT : ∀ j t t1, pt t → lib.timeUnmarshalJSON t j = (t1, none) → pt t1) :
    ∀ (n : Nat) (m0 : Message User Tm MessageComponent) (doc : JSON)
      (m : Message User Tm MessageComponent),
      Message.unmarshalBounded lib n m0 doc = some (m, none) → m.Forall pu pt := by
  intro n
  induction n with
  | zero =>
    intro m0 doc m h
    simp [Message.unmarshalBounded] at h
  | succ n ih =>
    intro m0 doc m h
    have key : ∀ res : Decoded (messageV User Tm MessageComponent),
        (∀ v s, res = .ok (v, s) → v.message.Forall pu pt) →
        assemble m0 lib.componentZero res = (m, none) → m.Forall pu pt := by
      intro res hres hasm
      match res, hres, hasm with
      | .error e, _, hasm => simp [assemble] at hasm
      | .ok (v, some e), _, hasm => simp [assemble] at hasm
      | .ok (v, none), hres, hasm =>
        rw [assemble_ok] at hasm
        simp only [Prod.mk.injEq, and_true] at hasm
        rw [← hasm]
        exact Message.forall_components pu pt _ _ (hres v none rfl)
    have hzero : ∀ (e : Option DecodeError) v s,
        (Except.ok ({ message := Message.zero lib, RawComponents := .nil }, e) :
          Decoded (messageV User Tm MessageComponent)) = .ok (v, s) →
        v.message.Forall pu pt := by
      intro e v s hvs
      simp only [Except.ok.injEq, Prod.mk.injEq] at hvs
      rw [← hvs.1]
      exact Message.zero_forall lib pu pt hzU hzT
    cases doc with
    | object members =>
      simp only [Message.unmarshalBounded] at h
      cases hw : decodeWireBounded lib (Message.unmarshalBounded lib n) members
          { message := Message.zero lib, RawComponents := .nil } with
      | none => simp [hw] at h
      | some res =>
        rw [hw] at h
        simp only [Option.map_some', Option.some.injEq] at h
        refine key res ?_ h
        intro v s hres
        subst hres
        exact decodeWireBounded_forall lib pu pt hzU hzT hkeepU hkeepT _
          (fun p doc r hr => ih p doc r hr) members _ v s
          (Message.zero_forall lib pu pt hzU hzT) hw
    | null | bool _ | int _ | float _ | string _ | array _ =>
      simp only [Message.unmarshalBounded, Option.some.injEq] at h
      exact key _ (hzero _) h

theorem unmarshalJSON_forall (lib : Collaborators User Tm MessageComponent)
    (pu : User → Prop) (pt : Tm → Prop) (hzU : pu lib.userZero) (hzT : pt lib.timeZero)
    (hkeepU : ∀ j u u1 s, pu u → lib.decodeUser j u = .ok (u1, s) → pu u1)
    (hkeepT : ∀ j t t1, pt t → lib.timeUnmarshalJSON t j = (t1, none) → pt t1)
    (m0 m : Message User Tm MessageComponent) (data : Payload)
    (h : Message.UnmarshalJSON lib m0 data = (m, none)) : m.Forall pu pt := by
  cases data with
  | invalid => simp [Message.UnmarshalJSON] at h
  | valid doc =>
    have hb := unmarshalBounded_eq lib (refDepth doc + 1) doc m0 (Nat.lt_succ_self _)
    simp only [Message.UnmarshalJSON] at h
    rw [h] at hb
    exact unmarshalBounded_forall lib pu pt hzU hzT hkeepU hkeepT _ m0 doc m hb

end

section
variable {User Tm MessageComponent : Type}

theorem encodeElems_some {α : Type} (enc : α → Option JSON) (xs : List α)
    (h : ∀ x ∈ xs, ∃ j, enc x = some j) : ∃ js, encodeElems enc xs = some js := by
  induction xs with
  | nil => exact ⟨[], rfl⟩
  | cons x xs ih =>
    obtain ⟨j, hj⟩ := h x (List.mem_cons_self _ _)
    obtain ⟨js, hjs⟩ := ih (fun y hy => h y (List.mem_cons_of_mem _ hy))
    exact ⟨j :: js, by simp [encodeElems, hj, hjs]⟩

theorem encodeSlice_some {α : Type} (enc : α → Option JSON) (s : Slice α)
    (h : ∀ x ∈ s.toList, ∃ j, enc x = some j) : ∃ j, encodeSlice enc s = some j := by
  cases s with
  | nil => exact ⟨.null, rfl⟩
  | mk xs =>
    obtain ⟨js, hjs⟩ := encodeElems_some enc xs h
    exact ⟨.array js, by simp [encodeSlice, hjs]⟩

theorem embed_encode_some (enc : Encoders User Tm) (e : Embed Tm)
    (h : ∃ j, enc.timeMarshalJSON e.Time = some j) : ∃ j, Embed.encode enc e = some j := by
  obtain ⟨jt, hjt⟩ := h
  simp only [Embed.encode, hjt]
  exact ⟨_, rfl⟩

theorem encodeFields_some (enc : Encoders User Tm) (m : Message User Tm MessageComponent)
    (jr : List (String × JSON))
    (h : m.Forall (fun u => ∃ j, enc.encodeUser u = some j)
      (fun t => ∃ j, enc.timeMarshalJSON t = some j)) :
    ∃ j, Message.encodeFields enc m jr = some j := by
  obtain ⟨⟨jA, hA⟩, ⟨jT, hT⟩, ⟨jE, hE⟩, hM, -, hEm, -⟩ := (Message.Forall_iff _ _ m).1 h
  obtain ⟨jM, hjM⟩ := encodeSlice_some enc.encodeUser m.Mentions hM
  obtain ⟨jEm, hjEm⟩ := encodeElems_some (Embed.encode enc) m.Embeds.toList
    (fun e he => embed_encode_some enc e (hEm e he).1)
  simp only [Message.encodeFields, hA, hT, hE, hjM, hjEm]
  exact ⟨_, rfl⟩

theorem encode_some_of_forall (enc : Encoders User Tm) :
    ∀ (n : Nat) (m : Message User Tm MessageComponent), m.chainLength ≤ n →
      m.Forall (fun u => ∃ j, enc.encodeUser u = some j)
        (fun t => ∃ j, enc.timeMarshalJSON t = some j) →
      ∃ j, Message.encode enc m = some j := by
  intro n
  induction n with
  | zero =>
    intro m hlen h
    cases hr : m.ReferencedMessage with
    | some r =>
      rw [Message.chainLength_some m r hr] at hlen
      omega
    | none =>
      rw [Message.encode_none enc m hr]
      exact encodeFields_some enc m [] h
  | succ n ih =>
    intro m hlen h
    cases hr : m.ReferencedMessage with
    | none =>
      rw [Message.encode_none enc m hr]
      exact encodeFields_some enc m [] h
    | some r =>
      rw [Message.chainLength_some m r hr] at hlen
      have hrF := ((Message.Forall_iff _ _ m).1 h).2.2.2.2.2.2 r hr
      obtain ⟨jr, hjr⟩ := ih r (by omega) hrF
      rw [Message.encode_some enc m r hr, hjr]
      exact encodeFields_some enc m _ h

theorem Message.forall_mono (pu qu : User → Prop) (pt qt : Tm → Prop)
    (hu : ∀ u, pu u → qu u) (ht : ∀ t, pt t → qt t) :
    ∀ (n : Nat) (m : Message User Tm MessageComponent), m.chainLength ≤ n →
      m.Forall pu pt → m.Forall qu qt := by
  intro n
  induction n with
  | zero =>
    intro m hlen h
    obtain ⟨h1, h2, h3, h4, h5, h6, h7⟩ := (Message.Forall_iff _ _ m).1 h
    refine (Message.Forall_iff _ _ m).2 ⟨hu _ h1, ht _ h2, ht _ h3, fun u hmem => hu _ (h4 u hmem),
      h5, fun e he => ⟨ht _ (h6 e he).1, (h6 e he).2⟩, ?_⟩
    intro r hr
    rw [Message.chainLength_some m r hr] at hlen
    omega
  | succ n ih =>
    intro m hlen h
    obtain ⟨h1, h2, h3, h4, h5, h6, h7⟩ := (Message.Forall_iff _ _ m).1 h
    refine (Message.Forall_iff _ _ m).2 ⟨hu _ h1, ht _ h2, ht _ h3, fun u hmem => hu _ (h4 u hmem),
      h5, fun e he => ⟨ht _ (h6 e he).1, (h6 e he).2⟩, ?_⟩
    intro r hr
    rw [Message.chainLength_some m r hr] at hlen
    exact ih r (by omega) (h7 r hr)

end

section
variable {User Tm MessageComponent : Type}

theorem Slice.toList_map_omitEmpty {α β : Type} (f : α → β) (s : Slice α) :
    (s.map f).omitEmpty.toList = s.toList.map f := by
  cases s with
  | nil => rfl
  | mk xs =>
    cases xs with
    | nil => rfl
    | cons x xs => rfl

/-- C7 as stated fails: the message decoded from a payload with `"embeds": []` has an
allocated empty `Embeds`; its encoding leaves `embeds` out (`omitempty`), and decoding
that encoding gives the nil slice. -/
theorem empty_embeds_not_restored :
    (Message.UnmarshalJSON sampleLib sampleReceiver emptyEmbedsPayload).2 = none ∧
    (Message.UnmarshalJSON sampleLib sampleReceiver emptyEmbedsPayload).1.Embeds = .mk [] ∧
    Message.encode sampleEncoders
      (Message.UnmarshalJSON sampleLib sampleReceiver emptyEmbedsPayload).1 =
        some emptyEmbedsEncoded ∧
    (Message.UnmarshalJSON sampleLib sampleReceiver (.valid emptyEmbedsEncoded)).2 = none ∧
    (Message.UnmarshalJSON sampleLib sampleReceiver (.valid emptyEmbedsEncoded)).1.Embeds =
      .nil ∧
    (Message.UnmarshalJSON sampleLib sampleReceiver (.valid emptyEmbedsEncoded)).1.Embeds ≠
      (Message.UnmarshalJSON sampleLib sampleReceiver emptyEmbedsPayload).1.Embeds :=
  ⟨rfl, rfl, rfl, rfl, rfl, by decide⟩

/-- C7, amended: for every `Message` `m` obtained by a successful `UnmarshalJSON`, the
encoding of `m` by its struct tags succeeds, and decoding that encoding succeeds and
yields `m.omitEmpty`: every flat field equals that of `m`, except that an allocated empty
`Embeds` (or `Fields` of an embed), which `omitempty` leaves out, comes back as the nil
slice; `Components` is excluded, and `ReferencedMessage` goes the same way. -/
theorem flat_fields_round_trip (lib : Collaborators User Tm MessageComponent)
    (enc : Encoders User Tm) (laws : RoundTrip lib enc)
    (m0 m : Message User Tm MessageComponent) (data : Payload)
    (hdec : Message.UnmarshalJSON lib m0 data = (m, none)) :
    ∃ j, Message.encode enc m = some j ∧
      ∀ m1, ∃ r, Message.UnmarshalJSON lib m1 (.valid j) = (r, none) ∧ r = m.omitEmpty ∧
        r.ID = m.ID ∧ r.ChannelID = m.ChannelID ∧ r.GuildID = m.GuildID ∧
        r.Author = m.Author ∧ r.Content = m.Content ∧ r.Time = m.Time ∧
        r.EditedTime = m.EditedTime ∧ r.TTS = m.TTS ∧
        r.MentionEveryone = m.MentionEveryone ∧ r.Mentions = m.Mentions ∧
        r.Type_ = m.Type_ ∧ r.Pinned = m.Pinned ∧ r.WebhookID = m.WebhookID ∧
        r.Embeds.toList = m.Embeds.toList.map Embed.omitEmpty ∧
        r.ReferencedMessage = m.ReferencedMessage.map Message.omitEmpty := by
  have hall := unmarshalJSON_forall lib (fun u => ∃ j, enc.encodeUser u = some j)
    (fun t => ∃ j, enc.timeMarshalJSON t = some j) laws.zeroUser laws.zeroTime
    laws.keepUser laws.keepTime m0 m data hdec
  obtain ⟨j, hj⟩ := encode_some_of_forall enc m.chainLength m (Nat.le_refl _) hall
  have htriv := Message.forall_mono _ (fun _ => True) _ (fun _ => True)
    (fun _ _ => trivial) (fun _ _ => trivial) m.chainLength m (Nat.le_refl _) hall
  refine ⟨j, hj, fun m1 => ⟨m.omitEmpty, ?_, rfl, ?_⟩⟩
  · exact unmarshalValue_encode lib enc laws.user laws.time m.chainLength m (Nat.le_refl _)
      htriv j hj m1
  · rw [Message.omitEmpty_eq]
    exact ⟨rfl, rfl, rfl, rfl, rfl, rfl, rfl, rfl, rfl, rfl, rfl, rfl, rfl,
      Slice.toList_map_omitEmpty _ _, rfl⟩

theorem sampleRoundTrip : RoundTrip sampleLib sampleEncoders where
  zeroUser := ⟨_, rfl⟩
  zeroTime := ⟨_, rfl⟩
  keepUser := fun _ _ _ _ _ _ => ⟨_, rfl⟩
  keepTime := fun _ _ _ _ _ => ⟨_, rfl⟩
  user := by
    intro u j h
    obtain ⟨id, name⟩ := u
    simp only [sampleEncoders, Option.some.injEq] at h
    subst h
    rfl
  time := by
    intro t j h
    simp only [sampleEncoders, Option.some.injEq] at h
    subst h
    rfl

/-- C7 amended, at the message decoded from the sample payload. -/
theorem flat_fields_round_trip_witness :
    (RoundTrip sampleLib sampleEncoders ∧
      Message.UnmarshalJSON sampleLib sampleReceiver (.valid (.object samplePayload)) =
        ((Message.UnmarshalJSON sampleLib sampleReceiver (.valid (.object samplePayload))).1,
          none)) ∧
    ∃ j, Message.encode sampleEncoders
        (Message.UnmarshalJSON sampleLib sampleReceiver (.valid (.object samplePayload))).1 =
          some j ∧
      ∃ r, Message.UnmarshalJSON sampleLib (Message.zero sampleLib) (.valid j) = (r, none) ∧
        r.ID = "42" :=
  ⟨⟨sampleRoundTrip, rfl⟩, by
    obtain ⟨j, hj, hback⟩ := flat_fields_round_trip sampleLib sampleEncoders sampleRoundTrip
      sampleReceiver _ (.valid (.object samplePayload)) rfl
    obtain ⟨r, hr, -, hid, -⟩ := hback (Message.zero sampleLib)
    exact ⟨j, hj, r, hr, hid⟩⟩

end

section
variable {User Tm MessageComponent : Type}

theorem storeField_keep_content (lib : Collaborators User Tm MessageComponent)
    (f g : WireField)
    (nested : Message User Tm MessageComponent →
      Message User Tm MessageComponent × Option DecodeError)
    (val : JSON) (v v1 : messageV User Tm MessageComponent) (s : Option DecodeError)
    (hf : f ≠ .RawComponents) (hg : g ≠ f) (h : storeField lib g nested val v = .ok (v1, s)) :
    v1.message.content f = v.message.content f := by
  cases g <;> first
    | (simp only [storeField] at h
       obtain ⟨b, -, rfl⟩ := onMessage_ok _ _ _ _ _ _ _ h
       cases f <;> first
         | rfl
         | exact absurd rfl hg)
    | (simp only [storeField] at h
       split at h
       · simp at h
       · simp only [Except.ok.injEq, Prod.mk.injEq] at h
         rw [← h.1])

theorem decodeWire_keep_content (lib : Collaborators User Tm MessageComponent)
    (f : WireField) (hf : f ≠ .RawComponents) :
    ∀ (ms : List (String × JSON)) (v v1 : messageV User Tm MessageComponent)
      (s : Option DecodeError), (∀ kv ∈ ms, resolve kv.1 ≠ some f) →
      decodeWire lib ms v = .ok (v1, s) → v1.message.content f = v.message.content f := by
  intro ms
  induction ms with
  | nil =>
    intro v v1 s _ h
    simp only [decodeWire, Except.ok.injEq, Prod.mk.injEq] at h
    rw [h.1]
  | cons kv rest ih =>
    obtain ⟨key, val⟩ := kv
    intro v v1 s hms h
    have hkey : resolve key ≠ some f := hms (key, val) (List.mem_cons_self _ _)
    have hrest : ∀ kv ∈ rest, resolve kv.1 ≠ some f :=
      fun kv hkv => hms kv (List.mem_cons_of_mem _ hkv)
    simp only [decodeWire] at h
    cases hk : resolve key with
    | none =>
      rw [hk] at h
      exact ih v v1 s hrest h
    | some g =>
      rw [hk] at h
      simp only at h
      have hg : g ≠ f := by
        intro hgf
        rw [hk, hgf] at hkey
        exact hkey rfl
      cases hs : storeField lib g (fun p => Message.unmarshalValue lib p val) val v with
      | error e => simp [hs] at h
      | ok r =>
        obtain ⟨v2, s1⟩ := r
        rw [hs] at h
        simp only at h
        cases hr : decodeWire lib rest v2 with
        | error e => simp [hr] at h
        | ok r2 =>
          obtain ⟨v3, s2⟩ := r2
          rw [hr] at h
          simp only [Except.ok.injEq, Prod.mk.injEq] at h
          rw [← h.1, ih v2 v3 s2 hrest hr]
          exact storeField_keep_content lib f g _ val v v2 s1 hf hg hs

theorem unmentioned_field_zero (lib : Collaborators User Tm MessageComponent)
    (m r : Message User Tm MessageComponent) (data : Payload) (f : WireField)
    (hdec : Message.UnmarshalJSON lib m data = (r, none)) (hf : ¬ data.mentions f) :
    r.content f =
      ({ Message.zero lib with Components := .mk [] } :
        Message User Tm MessageComponent).content f := by
  cases data with
  | invalid => simp [Message.UnmarshalJSON] at hdec
  | valid doc =>
    obtain ⟨v, hv, hr⟩ := unmarshalValue_ok lib m r doc hdec
    cases doc with
    | object members =>
      have hmiss : ∀ kv ∈ members, resolve kv.1 ≠ some f :=
        fun kv hkv hres => hf ⟨kv, hkv, hres⟩
      by_cases hraw : f = .RawComponents
      · subst hraw
        have hnil := unmarshalV_raw lib members v hv
        rw [lastMember_eq_none _ _ hmiss] at hnil
        simp only at hnil
        rw [hr, hnil]
        rfl
      · have hkeep := decodeWire_keep_content lib f hraw members _ v none hmiss hv
        rw [hr]
        cases f <;> first
          | exact absurd rfl hraw
          | exact hkeep
    | null =>
      simp only [unmarshalV, Except.ok.injEq, Prod.mk.injEq, and_true] at hv
      rw [hr, ← hv]
      rfl
    | bool _ | int _ | float _ | string _ | array _ => simp [unmarshalV] at hv

end

section
variable {User Tm MessageComponent : Type}

/-- C9: a successful call gives the same receiver whatever the receiver held before, and
every field that the payload does not mention holds its zero value afterwards
(`Components` the empty allocated slice). -/
theorem result_independent_of_receiver (lib : Collaborators User Tm MessageComponent)
    (p q r : Message User Tm MessageComponent) (data : Payload)
    (hdec : Message.UnmarshalJSON lib p data = (r, none)) :
    Message.UnmarshalJSON lib q data = (r, none) ∧
    ∀ f, ¬ data.mentions f →
      r.content f =
        ({ Message.zero lib with Components := .mk [] } :
          Message User Tm MessageComponent).content f := by
  refine ⟨?_, fun f hf => unmentioned_field_zero lib p r data f hdec hf⟩
  cases data with
  | invalid => simp [Message.UnmarshalJSON] at hdec
  | valid doc => exact unmarshalValue_receiver lib p q r doc hdec

/-- C9, at the sample payload, for a receiver with content and a zero receiver: both end
up equal, and `Content`, which the payload does not mention, is empty. -/
theorem result_independent_of_receiver_witness :
    Message.UnmarshalJSON sampleLib sampleReceiver (.valid (.object samplePayload)) =
        ((Message.UnmarshalJSON sampleLib sampleReceiver (.valid (.object samplePayload))).1,
          none) ∧
    Message.UnmarshalJSON sampleLib (Message.zero sampleLib) (.valid (.object samplePayload)) =
      ((Message.UnmarshalJSON sampleLib sampleReceiver (.valid (.object samplePayload))).1,
        none) ∧
    (Message.UnmarshalJSON sampleLib sampleReceiver
      (.valid (.object samplePayload))).1.content .Content = .text "" :=
  ⟨rfl, (result_independent_of_receiver sampleLib sampleReceiver (Message.zero sampleLib) _
      (.valid (.object samplePayload)) rfl).1,
    (result_independent_of_receiver sampleLib sampleReceiver (Message.zero sampleLib) _
      (.valid (.object samplePayload)) rfl).2 .Content (by
        simp only [Payload.mentions, samplePayload]
        decide)⟩

end

end discord
